import Mathlib

/-!
Verification development for the Reframe repository.

Shallow embedding of the parts of the code the claims are about:
* `media_core.segment.shorts` — `SegmentCandidate`, `select_top`;
* `media_core.subtitles.builder` — `Word`, `SubtitleLine`, `GroupingConfig`,
  `group_words`, karaoke duration allocation;
* `media_core.diarize` — `SpeakerSegment`, `assign_speakers_to_lines`;
* `apps/api/app/api.py` — job cancellation, asset deletion, asset upload;
* `apps/api/app/storage.py` — `LocalStorageBackend`;
* `services/worker/worker.py` — `update_job` and its terminal call sites.

Python floats are modelled as exact rationals (`ℚ`), Python `int` as `ℤ`/`ℕ`,
Python strings as `List Char`, filesystem paths as lists of components.
-/

/-! ### Strings and paths (Python `str` / `pathlib.Path`) -/

/-- Python `str.strip()` on a character list: drop whitespace on both ends. -/
def pyStrip (cs : List Char) : List Char :=
  ((cs.dropWhile Char.isWhitespace).reverse.dropWhile Char.isWhitespace).reverse

/-- Python `str.strip(ch)` for a single character argument. -/
def pyStripChar (ch : Char) (cs : List Char) : List Char :=
  ((cs.dropWhile (· = ch)).reverse.dropWhile (· = ch)).reverse

/-- Python `str.lstrip(ch)` for a single character. -/
def pyLStripChar (ch : Char) (cs : List Char) : List Char :=
  cs.dropWhile (· = ch)

/-- Split a character list on a separator character (Python `str.split(sep)`
keeps empty fields; callers below filter them as `pathlib` does). -/
def splitOnChar (sep : Char) : List Char → List (List Char)
  | [] => [[]]
  | c :: rest =>
    let r := splitOnChar sep rest
    if c = sep then [] :: r
    else match r with
      | [] => [[c]]
      | h :: t => (c :: h) :: t

/-- `pathlib.PurePath(...).parts` for a relative path string: split on `/`,
dropping empty components and `"."`. -/
def pathParts (cs : List Char) : List (List Char) :=
  (splitOnChar '/' cs).filter (fun p => p ≠ [] ∧ p ≠ ['.'])

/-- A filesystem path, as its list of components. -/
abbrev FsPath := List (List Char)

/-- `str.lower()` on a character list. -/
def pyLower (cs : List Char) : List Char := cs.map Char.toLower

/-- `storage.is_remote_uri`: lowercased, stripped URI starts with one of the
remote schemes. -/
def is_remote_uri (uri : List Char) : Bool :=
  let lowered := pyLower (pyStrip uri)
  (['h','t','t','p',':','/','/'].isPrefixOf lowered) ||
  (['h','t','t','p','s',':','/','/'].isPrefixOf lowered) ||
  (['s','3',':','/','/'].isPrefixOf lowered) ||
  (['g','s',':','/','/'].isPrefixOf lowered)

/-! ### `apps/api/app/storage.py` — `LocalStorageBackend` -/

/-- `LocalStorageBackend` with its `media_root` path; `public_prefix` is the
constant `"/media"` in the code, so the stripped prefix component is
`"media"`. -/
structure LocalStorageBackend where
  media_root : FsPath

/-- The URI returned by `LocalStorageBackend.write_file`: `rel_dir` is
stripped of slashes, and the URI is `"/media/{rel_dir}/{filename}"` (or
`"/media/{filename}"` when the stripped `rel_dir` is empty).  The file at
`source_path` is copied to `media_root / rel_dir / filename`; the returned
URI does not depend on `source_path`. -/
def write_file (rel_dir : List Char) (filename : List Char)
    (_source_path : FsPath) : List Char :=
  if pyStripChar '/' rel_dir = [] then ['/','m','e','d','i','a','/'] ++ filename
  else ['/','m','e','d','i','a','/'] ++ pyStripChar '/' rel_dir ++ ['/'] ++ filename

/-- The on-disk target path of `write_file` (`media_root / rel_dir / filename`). -/
def write_file_target (b : LocalStorageBackend) (rel_dir filename : List Char) : FsPath :=
  b.media_root ++ pathParts (pyStripChar '/' rel_dir) ++ [filename]

/-- `LocalStorageBackend.resolve_local_path`: `ValueError` (modelled as
`Except.error`) for remote URIs; otherwise strip leading `/`, drop a leading
`"media"` component, and resolve under `media_root`. -/
def resolve_local_path (b : LocalStorageBackend) (uri : List Char) :
    Except Unit FsPath :=
  if is_remote_uri uri then .error ()
  else match pathParts (pyLStripChar '/' uri) with
    | p :: rest =>
      if p = ['m','e','d','i','a'] then .ok (b.media_root ++ rest)
      else .ok (b.media_root ++ p :: rest)
    | [] => .ok (b.media_root ++ [])

/-! ### Job model (`apps/api/app/models.py`) -/

inductive JobStatus
  | queued | running | completed | failed | cancelled
deriving DecidableEq, Repr

/-- Membership in `{completed, failed, cancelled}`. -/
def JobStatus.isTerminal : JobStatus → Bool
  | .completed => true
  | .failed => true
  | .cancelled => true
  | _ => false

/-- The fields of `Job` the lifecycle claims are about. -/
structure Job where
  status : JobStatus
  progress : ℚ
  error : Option (List Char)
deriving DecidableEq, Repr

/-! ### `apps/api/app/api.py` — `cancel_job` -/

inductive CancelResult
  | notFound
  | conflict
  | ok (job : Job)
deriving DecidableEq, Repr

/-- `POST /jobs/{job_id}/cancel`: 404 when absent; 409 when the job is in a
terminal state; otherwise set `status = cancelled` and `progress = 0.0`. -/
def cancel_job : Option Job → CancelResult
  | none => .notFound
  | some job =>
    if job.status.isTerminal then .conflict
    else .ok { job with status := .cancelled, progress := 0 }

/-! ### `services/worker/worker.py` — `update_job` -/

/-- The keyword arguments of `worker.update_job` (all optional). -/
structure UpdateParams where
  status : Option JobStatus := none
  progress : Option ℚ := none
  error : Option (List Char) := none
deriving Repr

/-- `worker.update_job` applied to an existing job: each given field is
written unconditionally (`if status: job.status = status`, etc.).  Note
`if error:` is falsy for the empty string, so an empty error is ignored. -/
def update_job (job : Job) (u : UpdateParams) : Job :=
  let job := match u.status with
    | some s => { job with status := s }
    | none => job
  let job := match u.progress with
    | some p => { job with progress := p }
    | none => job
  match u.error with
  | some e => if e = [] then job else { job with error := some e }
  | none => job

/-- The worker's uniform success epilogue:
`update_job(job_id, status=JobStatus.completed, progress=1.0, ...)`. -/
def worker_complete (job : Job) : Job :=
  update_job job { status := some .completed, progress := some 1 }

/-- The worker's uniform failure epilogue:
`update_job(job_id, status=JobStatus.failed, progress=1.0, error=error)`. -/
def worker_fail (job : Job) (err : List Char) : Job :=
  update_job job { status := some .failed, progress := some 1, error := some err }

/-! ### `apps/api/app/api.py` — `delete_asset` -/

/-- The referencing fields of a `Job` row: `input_asset_id`,
`output_asset_id`, and the asset ids mentioned in `payload.clip_assets`. -/
structure JobRef where
  input_asset_id : Option ℕ
  output_asset_id : Option ℕ
  clip_assets : List ℕ
deriving DecidableEq, Repr

/-- The database state `delete_asset` consults: existing asset ids and the
job rows. -/
structure AssetStore where
  assets : List ℕ
  jobs : List JobRef
deriving DecidableEq, Repr

inductive DeleteResult
  | notFound
  | conflict
  | deleted (s : AssetStore)
deriving DecidableEq, Repr

/-- `DELETE /assets/{asset_id}`: 404 when absent; 409 when some job's
`input_asset_id` or `output_asset_id` equals the id (the query
`(Job.input_asset_id == asset_id) | (Job.output_asset_id == asset_id)`);
otherwise delete the row (and its local file). -/
def delete_asset (s : AssetStore) (id : ℕ) : DeleteResult :=
  if id ∉ s.assets then .notFound
  else if s.jobs.any (fun j =>
      j.input_asset_id = some id || j.output_asset_id = some id) then
    .conflict
  else .deleted { s with assets := s.assets.erase id }

/-! ### `apps/api/app/api.py` — `upload_asset` -/

/-- The externally visible state `upload_asset` touches: the bytes in this
upload's temporary file (`none` = no file), the files written through the
storage backend, and the persisted `MediaAsset` rows (both recorded by
size). -/
structure UploadState where
  tmp : Option ℕ
  media : List ℕ
  dbAssets : List ℕ
deriving DecidableEq, Repr

inductive UploadResult
  | created (s : UploadState) (assetSize : ℕ)
  | tooLarge (s : UploadState)
deriving DecidableEq, Repr

/-- The chunked read loop of `upload_asset`: for each (nonempty) chunk,
`total += len(chunk)`; if `max_bytes and total > max_bytes`, the tmp file is
unlinked and 413 is raised before the chunk is written; otherwise the chunk
is appended to the tmp file.  A zero-length chunk ends the loop (`if not
chunk: break`). -/
def uploadLoop (s : UploadState) (maxBytes : ℕ) :
    List ℕ → ℕ → ℕ → Except UploadState (UploadState × ℕ)
  | [], total, written =>
    .ok ({ s with tmp := some written }, total)
  | c :: rest, total, written =>
    if c = 0 then .ok ({ s with tmp := some written }, total)
    else
      let total := total + c
      if maxBytes ≠ 0 ∧ total > maxBytes then
        .error { s with tmp := none }
      else uploadLoop s maxBytes rest total (written + c)

/-- `upload_asset` end to end: `max_bytes = max(0, int(max_upload_bytes or
0))`; run the read loop; on success write the file through storage and
persist a `MediaAsset` row. -/
def upload_asset (s0 : UploadState) (chunks : List ℕ) (maxUploadBytes : ℤ) :
    UploadResult :=
  let maxBytes := (max 0 maxUploadBytes).toNat
  match uploadLoop { s0 with tmp := some 0 } maxBytes chunks 0 0 with
  | .error s => .tooLarge s
  | .ok (s, total) =>
    .created { s with media := s.media ++ [total],
                      dbAssets := s.dbAssets ++ [total] } total

/-! ### Subtitle model (`media_core/subtitles/builder.py`,
`media_core/transcribe/models.py`) -/

/-- `transcribe.models.Word` (the fields `group_words` and the karaoke
renderer use). -/
structure Word where
  text : List Char
  start : ℚ
  stop : ℚ
deriving DecidableEq, Repr

/-- `" ".join(w.text for w in ws)`. -/
def joinWords (ws : List Word) : List Char :=
  List.intercalate [' '] (ws.map Word.text)

/-- `builder.SubtitleLine` (`stop` models the Python field `end`). -/
structure SubtitleLine where
  start : ℚ
  stop : ℚ
  words : List Word
  speaker : Option (List Char) := none
deriving DecidableEq, Repr

/-- `SubtitleLine.text()`: `" ".join(w.text for w in self.words).strip()`. -/
def SubtitleLine.text (l : SubtitleLine) : List Char :=
  pyStrip (joinWords l.words)

/-- `SubtitleLine.duration`: `max(0.0, self.end - self.start)`. -/
def SubtitleLine.duration (l : SubtitleLine) : ℚ :=
  max 0 (l.stop - l.start)

/-- `builder.GroupingConfig`. -/
structure GroupingConfig where
  max_chars_per_line : ℕ
  max_words_per_line : ℕ
  max_duration : ℚ
  max_gap : ℚ
deriving DecidableEq, Repr

/-- The body of the `group_words` loop after the first word: the buffer
`cur` is nonempty; each new word either extends the buffer or, on a
violation, flushes it and starts a new line. -/
def groupWordsAux (cfg : GroupingConfig) :
    List Word → List Word → ℚ → ℚ → List SubtitleLine
  | [], cur, curStart, lastEnd =>
    [{ start := curStart, stop := lastEnd, words := cur }]
  | w :: rest, cur, curStart, lastEnd =>
    let candidate := joinWords (cur ++ [w])
    let tooManyChars := candidate.length > cfg.max_chars_per_line
    let tooManyWords := cur.length + 1 > cfg.max_words_per_line
    let tooLong := w.stop - curStart > cfg.max_duration
    let tooFar := w.start - lastEnd > cfg.max_gap
    if tooManyChars || tooManyWords || tooLong || tooFar then
      { start := curStart, stop := lastEnd, words := cur } ::
        groupWordsAux cfg rest [w] w.start w.stop
    else
      groupWordsAux cfg rest (cur ++ [w]) curStart w.stop

/-- `builder.group_words`. -/
def group_words (words : List Word) (cfg : GroupingConfig) : List SubtitleLine :=
  match words with
  | [] => []
  | w :: rest => groupWordsAux cfg rest [w] w.start w.stop

/-! ### `media_core/diarize` — `assign_speakers_to_lines` -/

/-- `diarize.models.SpeakerSegment` (`stop` models `end`). -/
structure SpeakerSegment where
  start : ℚ
  stop : ℚ
  speaker : List Char
deriving DecidableEq, Repr, Inhabited

/-- `max(0.0, min(line.end, seg.end) - max(line.start, seg.start))`. -/
def overlapQ (line : SubtitleLine) (seg : SpeakerSegment) : ℚ :=
  max 0 (min line.stop seg.stop - max line.start seg.start)

/-- The inner loop of `assign_speakers_to_lines`: running
`(best_speaker, best_overlap)` with `best_overlap` starting at `0.0` and
updated only on strict improvement. -/
def bestSpeakerFold (line : SubtitleLine) (segs : List SpeakerSegment)
    (acc : Option (List Char) × ℚ) : Option (List Char) × ℚ :=
  segs.foldl (fun acc seg =>
    let ov := overlapQ line seg
    if acc.2 < ov then (some seg.speaker, ov) else acc) acc

/-- `assign_speakers_to_lines`: with no segments, each line is copied with
its existing `speaker`; otherwise each line gets the fold's best speaker. -/
def assign_speakers_to_lines (lines : List SubtitleLine)
    (segments : List SpeakerSegment) : List SubtitleLine :=
  if segments = [] then
    lines.map (fun l =>
      { start := l.start, stop := l.stop, words := l.words, speaker := l.speaker })
  else
    lines.map (fun l =>
      { start := l.start, stop := l.stop, words := l.words,
        speaker := (bestSpeakerFold l segments (none, 0)).1 })

/-! ### `media_core/segment/shorts.py` — `select_top` -/

/-- `shorts.SegmentCandidate` (fields the selection uses; `stop` models
`end`). -/
structure SegmentCandidate where
  start : ℚ
  stop : ℚ
  score : ℚ
deriving DecidableEq, Repr, Inhabited

/-- `SegmentCandidate.duration`: `max(0.0, self.end - self.start)`. -/
def SegmentCandidate.duration (c : SegmentCandidate) : ℚ :=
  max 0 (c.stop - c.start)

/-- The duration filter at the top of `select_top`. -/
def durFilter (dmin dmax : ℚ) (cands : List SegmentCandidate) :
    List SegmentCandidate :=
  cands.filter (fun c =>
    decide (dmin ≤ c.duration) && decide (c.duration ≤ dmax) &&
    decide (c.start < c.stop))

/-- `sorted(filtered, key=lambda c: (c.end, c.start))`: stable sort by the
lexicographic key. -/
def sortByEndStart (l : List SegmentCandidate) : List SegmentCandidate :=
  l.mergeSort (fun a b =>
    decide (a.stop < b.stop ∨ (a.stop = b.stop ∧ a.start ≤ b.start)))

/-- `p[i]` of `select_top`: `bisect_right(ends, intervals[i].start - min_gap,
0, i)`, which on the end-sorted list equals the number of earlier intervals
whose end is `≤ start_i - min_gap`. -/
def predCount (gap : ℚ) (iv : List SegmentCandidate) (i : ℕ) : ℕ :=
  (iv.take i).countP (fun c => decide (c.stop ≤ (iv.getD i default).start - gap))

/-- The `select_top` DP table: `dpShorts gap iv i k` is `dp[i][k]`, the best
total score using the first `i` intervals with at most `k` picks. -/
def dpShorts (gap : ℚ) (iv : List SegmentCandidate) : ℕ → ℕ → ℚ
  | 0, _ => 0
  | _ + 1, 0 => 0
  | i + 1, k + 1 =>
    let c := iv.getD i default
    let skip := dpShorts gap iv i (k + 1)
    let takeV := c.score + dpShorts gap iv (predCount gap iv i) k
    if skip < takeV then takeV else skip
termination_by i _ => i
decreasing_by
  · exact Nat.lt_succ_of_le (le_refl i)
  · exact Nat.lt_succ_of_le (le_trans (List.countP_le_length _)
      (by simp))

/-- The `select_top` reconstruction loop (collects picks from the last
interval backwards). -/
def selShorts (gap : ℚ) (iv : List SegmentCandidate) : ℕ → ℕ → List SegmentCandidate
  | 0, _ => []
  | _ + 1, 0 => []
  | i + 1, k + 1 =>
    let c := iv.getD i default
    if dpShorts gap iv i (k + 1) < c.score + dpShorts gap iv (predCount gap iv i) k then
      c :: selShorts gap iv (predCount gap iv i) k
    else
      selShorts gap iv i (k + 1)
termination_by i _ => i
decreasing_by
  · exact Nat.lt_succ_of_le (le_trans (List.countP_le_length _)
      (by simp))
  · exact Nat.lt_succ_of_le (le_refl i)

/-- `shorts.select_top`: duration filter, early return on `max_segments <= 0`
or empty filter, weighted-interval DP, reconstruction, final
`selected.sort(key=lambda c: c.start)`. -/
def select_top (cands : List SegmentCandidate) (max_segments : ℤ)
    (dmin dmax gap : ℚ) : List SegmentCandidate :=
  let filtered := durFilter dmin dmax cands
  if max_segments ≤ 0 ∨ filtered = [] then []
  else
    let iv := sortByEndStart filtered
    let kmax := min max_segments.toNat iv.length
    (selShorts gap iv iv.length kmax).mergeSort (fun a b => decide (a.start ≤ b.start))

/-- Gap-compatibility of two selected segments (the claim's separation
predicate): one starts at or after the other's end plus the gap. -/
def SepBy (gap : ℚ) (a b : SegmentCandidate) : Prop :=
  b.start ≥ a.stop + gap ∨ a.start ≥ b.stop + gap

/-! ### `media_core/subtitles/builder.py` — karaoke durations -/

/-- Python 3 `round` to an integer: round half to even. -/
def pyRound (q : ℚ) : ℤ :=
  let f := ⌊q⌋
  let r := q - f
  if r < 1 / 2 then f
  else if 1 / 2 < r then f + 1
  else if f % 2 = 0 then f else f + 1

/-- `re.findall(r"\S+", cs)`: maximal runs of non-whitespace. -/
def findTokens : List Char → List (List Char)
  | [] => []
  | c :: rest =>
    if c.isWhitespace then findTokens rest
    else
      (c :: rest.takeWhile (fun d => ¬ d.isWhitespace)) ::
        findTokens (rest.dropWhile (fun d => ¬ d.isWhitespace))
termination_by cs => cs.length
decreasing_by
  · exact Nat.lt_succ_of_le (le_refl _)
  · exact Nat.lt_succ_of_le ((List.dropWhile_sublist _).length_le)

/-- `builder._tokenize_for_karaoke`: `re.findall(r"\S+", text.strip())`. -/
def tokenize_for_karaoke (text : List Char) : List (List Char) :=
  findTokens (pyStrip text)

/-- Token weights: `max(1, len(t))`. -/
def karaokeWeights (tokens : List (List Char)) : List ℕ :=
  tokens.map (fun t => max 1 t.length)

/-- One increment of the remainder-distribution loop. -/
def bumpAt (durs : List ℕ) (idx : ℕ) : List ℕ :=
  durs.set idx (durs.getD idx 0 + 1)

/-- The `delta > 0` loop of `_allocate_karaoke_durations_cs`: cycle over
`order` adding one centisecond at a time until `delta` is spent. -/
def addLoop (order : List ℕ) : ℕ → List ℕ → List ℕ → List ℕ
  | 0, _, durs => durs
  | d + 1, [], durs =>
    match order with
    | [] => durs
    | idx :: rest => addLoop order d rest (bumpAt durs idx)
  | d + 1, idx :: rest, durs => addLoop order d rest (bumpAt durs idx)

/-- One pass of the `delta < 0` loop over `order`: decrement entries `> 1`
while centiseconds still need removing; returns the new durations and how
many were removed. -/
def remPass : List ℕ → List ℕ → ℕ → List ℕ × ℕ
  | [], durs, _ => (durs, 0)
  | idx :: rest, durs, need =>
    if need = 0 then (durs, 0)
    else if 1 < durs.getD idx 0 then
      let pr := remPass rest (durs.set idx (durs.getD idx 0 - 1)) (need - 1)
      (pr.1, pr.2 + 1)
    else remPass rest durs need

/-- The `delta < 0` loop: repeat passes until `delta` reaches zero or a pass
removes nothing (no duration exceeds 1). -/
def remLoop (order : List ℕ) (durs : List ℕ) (need : ℕ) : List ℕ :=
  if h0 : need = 0 then durs
  else
    let pr := remPass order durs need
    if h : pr.2 = 0 then pr.1
    else remLoop order pr.1 (need - pr.2)
termination_by need
decreasing_by
  exact Nat.sub_lt (Nat.pos_of_ne_zero h0) (Nat.pos_of_ne_zero h)

/-- `denom = sum(weights) or len(tokens)`. -/
def allocateDenom (tokens : List (List Char)) : ℕ :=
  if (karaokeWeights tokens).sum = 0 then tokens.length
  else (karaokeWeights tokens).sum

/-- `durations = [max(1, int(total_cs * w / denom)) for w in weights]`. -/
def allocateInit (tokens : List (List Char)) (total : ℕ) : List ℕ :=
  (karaokeWeights tokens).map (fun w => max 1 (total * w / allocateDenom tokens))

/-- `order = sorted(range(len(tokens)), key=lambda i: weights[i],
reverse=True)` (a stable descending sort by weight). -/
def allocateOrder (tokens : List (List Char)) : List ℕ :=
  (List.range tokens.length).mergeSort (fun i j =>
    decide ((karaokeWeights tokens).getD j 0 ≤ (karaokeWeights tokens).getD i 0))

/-- The remainder-distribution phase of `_allocate_karaoke_durations_cs`:
add the missing centiseconds cycling over `order`, or remove the excess
while keeping every duration at least 1. -/
def allocateDistribute (tokens : List (List Char)) (total : ℕ) : List ℕ :=
  if (allocateInit tokens total).sum ≤ total then
    addLoop (allocateOrder tokens) (total - (allocateInit tokens total).sum)
      (allocateOrder tokens) (allocateInit tokens total)
  else
    remLoop (allocateOrder tokens) (allocateInit tokens total)
      ((allocateInit tokens total).sum - total)

/-- `builder._allocate_karaoke_durations_cs`: a non-positive budget is reset
to one centisecond per token; a budget below the token count yields all-1
durations; otherwise durations are proportional to token length with the
rounding remainder redistributed. -/
def _allocate_karaoke_durations_cs (tokens : List (List Char)) (total_cs : ℤ) :
    List ℕ :=
  if tokens = [] then []
  else if (if total_cs ≤ 0 then tokens.length else total_cs.toNat) <
      tokens.length then
    List.replicate tokens.length 1
  else
    allocateDistribute tokens
      (if total_cs ≤ 0 then tokens.length else total_cs.toNat)

/-- `int(round(max(0.01, line.duration) * 100))`: the line's centisecond
budget in `_karaoke_text_for_line`. -/
def lineTotalCs (l : SubtitleLine) : ℤ :=
  pyRound (max (1 / 100) l.duration * 100)

/-- The per-token centisecond durations emitted by
`builder._karaoke_text_for_line` (the `\kD` values, in order).  With at
least two timed words each word contributes `max(1, round((end-start)*100))`
and blank-text words are skipped; otherwise durations are synthesized by
`_allocate_karaoke_durations_cs` over the tokenized line text. -/
def karaokeDursCs (l : SubtitleLine) : List ℕ :=
  if l.words.length > 1 then
    ((l.words.map (fun w =>
        (w.text, (max 1 (pyRound (max 0 (w.stop - w.start) * 100))).toNat))).filter
      (fun td => pyStrip td.1 ≠ [])).map (fun td => td.2)
  else
    let tokens := tokenize_for_karaoke l.text
    let durs := _allocate_karaoke_durations_cs tokens (lineTotalCs l)
    ((tokens.zip durs).filter (fun td => pyStrip td.1 ≠ [])).map (fun td => td.2)

/-! ## Theorems -/

/-! ### C3 — terminal states as sinks -/

/-- C3, counterexample: the worker-side `update_job` is **not** a no-op on a
job already in a terminal state — updating a `completed` job with
`status=running, progress=0.5` changes both fields. -/
theorem C3_counterexample :
    (Job.mk .completed 1 none).status.isTerminal = true ∧
    update_job (Job.mk .completed 1 none)
        { status := some .running, progress := some 0 } =
      Job.mk .running 0 none :=
  ⟨rfl, rfl⟩

/-- C3, amended: the API refuses cancellation of a terminal job with
CONFLICT, but the worker-side `update_job` applies a provided `status`
unconditionally, terminal or not (`(update_job j u).status` is whatever `u`
provides, falling back to the old status). -/
theorem C3_terminal_guard (j : Job) (u : UpdateParams)
    (ht : j.status.isTerminal = true) :
    cancel_job (some j) = CancelResult.conflict ∧
    (update_job j u).status = u.status.getD j.status := by
  refine ⟨by simp [cancel_job, ht], ?_⟩
  rcases u with ⟨s, p, e⟩
  rcases s with _ | s <;> rcases p with _ | p <;> rcases e with _ | e <;>
    simp [update_job] <;> split <;> rfl

/-- Witness for `C3_terminal_guard` at a concrete terminal job. -/
theorem C3_terminal_guard_witness :
    cancel_job (some (Job.mk .completed 1 none)) = CancelResult.conflict ∧
    (update_job (Job.mk .completed 1 none)
        { status := some .running, progress := none, error := none }).status =
      (some JobStatus.running).getD (Job.mk .completed 1 none).status :=
  C3_terminal_guard (Job.mk .completed 1 none)
    { status := some .running, progress := none, error := none } (by decide)

/-! ### C4 — progress on terminal transitions -/

/-- C4, counterexample: user cancellation is a terminal transition that sets
`progress = 0.0`, not `1.0`. -/
theorem C4_counterexample :
    cancel_job (some (Job.mk .queued (1 / 2) none)) =
      CancelResult.ok (Job.mk .cancelled 0 none) ∧
    (Job.mk .cancelled 0 none).status.isTerminal = true ∧
    (Job.mk .cancelled 0 none).progress ≠ 1 :=
  ⟨rfl, rfl, by norm_num⟩

/-- C4, amended: the worker's terminal epilogues (`completed`/`failed`) set
`progress = 1.0`, while API cancellation sets the terminal status
`cancelled` with `progress = 0.0`. -/
theorem C4_terminal_progress (j : Job) (err : List Char) :
    (worker_complete j).progress = 1 ∧
    (worker_complete j).status = JobStatus.completed ∧
    (worker_fail j err).progress = 1 ∧
    (worker_fail j err).status = JobStatus.failed ∧
    (∀ j', cancel_job (some j) = CancelResult.ok j' →
      j'.status = JobStatus.cancelled ∧ j'.progress = 0) := by
  refine ⟨rfl, rfl, ?_, ?_, ?_⟩
  · by_cases h : err = [] <;> simp [worker_fail, update_job, h]
  · by_cases h : err = [] <;> simp [worker_fail, update_job, h]
  · intro j' h
    have h' : (if j.status.isTerminal then CancelResult.conflict
        else CancelResult.ok { j with status := .cancelled, progress := 0 }) =
        CancelResult.ok j' := h
    by_cases ht : j.status.isTerminal = true
    · rw [if_pos ht] at h'; cases h'
    · rw [if_neg ht] at h'
      have h2 := CancelResult.ok.inj h'
      subst h2
      exact ⟨rfl, rfl⟩

/-- Witness for `C4_terminal_progress` at a concrete running job. -/
theorem C4_terminal_progress_witness :
    (worker_complete (Job.mk .running (1 / 2) none)).progress = 1 ∧
    (worker_complete (Job.mk .running (1 / 2) none)).status = JobStatus.completed ∧
    (worker_fail (Job.mk .running (1 / 2) none) ['x']).progress = 1 ∧
    (worker_fail (Job.mk .running (1 / 2) none) ['x']).status = JobStatus.failed ∧
    (∀ j', cancel_job (some (Job.mk .running (1 / 2) none)) = CancelResult.ok j' →
      j'.status = JobStatus.cancelled ∧ j'.progress = 0) :=
  C4_terminal_progress (Job.mk .running (1 / 2) none) ['x']

/-! ### C6 — asset deletion and referencing -/

/-- C6, counterexample: an asset referenced **only** through a job's
`payload.clip_assets` is deleted (204) rather than refused with CONFLICT. -/
theorem C6_counterexample :
    delete_asset (AssetStore.mk [1] [JobRef.mk none none [1]]) 1 =
      DeleteResult.deleted (AssetStore.mk [] [JobRef.mk none none [1]]) ∧
    1 ∈ (JobRef.mk none none [1]).clip_assets := by
  decide

/-- C6, amended: `DELETE /assets/{id}` fails with CONFLICT exactly when some
job's `input_asset_id` or `output_asset_id` equals the id
(`payload.clip_assets` entries do not count); an existing unreferenced asset
is deleted, an absent id yields NOT_FOUND. -/
theorem C6_delete_asset_spec (s : AssetStore) (id : ℕ) :
    (delete_asset s id = DeleteResult.notFound ↔ id ∉ s.assets) ∧
    (delete_asset s id = DeleteResult.conflict ↔ id ∈ s.assets ∧
      ∃ j ∈ s.jobs, j.input_asset_id = some id ∨ j.output_asset_id = some id) ∧
    (id ∈ s.assets →
      (∀ j ∈ s.jobs, j.input_asset_id ≠ some id ∧ j.output_asset_id ≠ some id) →
      delete_asset s id = DeleteResult.deleted ⟨s.assets.erase id, s.jobs⟩) := by
  have hany : (s.jobs.any (fun j =>
      j.input_asset_id = some id || j.output_asset_id = some id)) = true ↔
      ∃ j ∈ s.jobs, j.input_asset_id = some id ∨ j.output_asset_id = some id := by
    simp [List.any_eq_true]
  by_cases hmem : id ∈ s.assets
  · by_cases href : (s.jobs.any (fun j =>
        j.input_asset_id = some id || j.output_asset_id = some id)) = true
    · have hres : delete_asset s id = DeleteResult.conflict := by
        simp [delete_asset, hmem, href]
      refine ⟨?_, ?_, ?_⟩
      · rw [hres]; exact iff_of_false (by simp) (by simp [hmem])
      · rw [hres]; exact iff_of_true rfl ⟨hmem, hany.mp href⟩
      · intro _ hall
        exfalso
        obtain ⟨j, hj, hd⟩ := hany.mp href
        rcases hd with h | h
        · exact (hall j hj).1 h
        · exact (hall j hj).2 h
    · have hres : delete_asset s id =
          DeleteResult.deleted ⟨s.assets.erase id, s.jobs⟩ := by
        rw [delete_asset, if_neg (by simpa using hmem), if_neg href]
      refine ⟨?_, ?_, ?_⟩
      · rw [hres]; exact iff_of_false (by simp) (by simp [hmem])
      · rw [hres]
        exact iff_of_false (by simp) (fun hc => href (hany.mpr hc.2))
      · intro _ _; exact hres
  · have hres : delete_asset s id = DeleteResult.notFound := by
      rw [delete_asset, if_pos hmem]
    refine ⟨?_, ?_, ?_⟩
    · rw [hres]; exact iff_of_true rfl hmem
    · rw [hres]; exact iff_of_false (by simp) (fun hc => hmem hc.1)
    · intro hmem2 _; exact absurd hmem2 hmem

/-! ### C9, C10 — upload size limit and error atomicity -/

/-- Outcome of the `upload_asset` read loop, assuming all chunks are
nonempty: it rejects exactly when the limit is enabled and the total size
exceeds it (checked after adding each chunk, before writing it). -/
theorem uploadLoop_spec (mb : ℕ) (s : UploadState) :
    ∀ (chunks : List ℕ) (total written : ℕ), (∀ c ∈ chunks, 0 < c) →
    (mb = 0 ∨ total ≤ mb) →
    uploadLoop s mb chunks total written =
      (if mb ≠ 0 ∧ mb < total + chunks.sum then
         Except.error { s with tmp := none }
       else Except.ok ({ s with tmp := some (written + chunks.sum) },
         total + chunks.sum)) := by
  intro chunks
  induction chunks with
  | nil =>
    intro total written _ hinv
    have hcond : ¬ (mb ≠ 0 ∧ mb < total + List.sum []) := by
      rintro ⟨h0, hlt⟩
      rcases hinv with h | h
      · exact h0 h
      · simp at hlt; omega
    rw [if_neg hcond]
    simp [uploadLoop]
  | cons c rest ih =>
    intro total written hc hinv
    have hcpos : 0 < c := hc c (by simp)
    have hcne : ¬ c = 0 := Nat.pos_iff_ne_zero.mp hcpos
    show (if c = 0 then _ else _) = _
    rw [if_neg hcne]
    by_cases habort : mb ≠ 0 ∧ total + c > mb
    · rw [if_pos habort]
      have hcond : mb ≠ 0 ∧ mb < total + (c :: rest).sum := by
        refine ⟨habort.1, ?_⟩
        rw [List.sum_cons]
        omega
      rw [if_pos hcond]
    · rw [if_neg habort]
      have hinv' : mb = 0 ∨ total + c ≤ mb := by
        by_cases h0 : mb = 0
        · exact Or.inl h0
        · right
          by_contra hgt
          exact habort ⟨h0, by omega⟩
      rw [ih (total + c) (written + c) (fun x hx => hc x (by simp [hx])) hinv']
      simp [List.sum_cons, Nat.add_assoc]

/-- C9: with a positive limit, an upload of exactly `max_upload_bytes` bytes
is accepted (a `MediaAsset` row of that size is persisted), one of
`max_upload_bytes + 1` bytes is rejected with 413, and a limit of `0`
disables the size check entirely. -/
theorem C9_upload_size_limit (s0 : UploadState) (chunks : List ℕ) (mb : ℕ)
    (hc : ∀ c ∈ chunks, 0 < c) :
    (0 < mb → chunks.sum = mb →
      upload_asset s0 chunks (mb : ℤ) =
        UploadResult.created
          { tmp := some mb, media := s0.media ++ [mb],
            dbAssets := s0.dbAssets ++ [mb] } mb) ∧
    (0 < mb → chunks.sum = mb + 1 →
      upload_asset s0 chunks (mb : ℤ) =
        UploadResult.tooLarge { s0 with tmp := none }) ∧
    upload_asset s0 chunks (0 : ℤ) =
      UploadResult.created
        { tmp := some chunks.sum, media := s0.media ++ [chunks.sum],
          dbAssets := s0.dbAssets ++ [chunks.sum] } chunks.sum := by
  have hmax : (max 0 (mb : ℤ)).toNat = mb := by simp
  have hmax0 : (max 0 (0 : ℤ)).toNat = 0 := by simp
  refine ⟨?_, ?_, ?_⟩
  · intro hpos hsum
    have hloop := uploadLoop_spec mb { s0 with tmp := some 0 } chunks 0 0 hc
      (Or.inr (by omega))
    rw [if_neg (by omega)] at hloop
    unfold upload_asset
    simp only [hmax, hloop]
    simp [hsum]
  · intro hpos hsum
    have hloop := uploadLoop_spec mb { s0 with tmp := some 0 } chunks 0 0 hc
      (Or.inr (by omega))
    rw [if_pos ⟨by omega, by omega⟩] at hloop
    unfold upload_asset
    simp only [hmax, hloop]
  · have hloop := uploadLoop_spec 0 { s0 with tmp := some 0 } chunks 0 0 hc
      (Or.inl rfl)
    rw [if_neg (by simp)] at hloop
    unfold upload_asset
    simp only [hmax0, hloop]
    simp

/-- Witness for `C9_upload_size_limit`: a two-chunk upload of exactly the
2-byte limit is accepted and persisted. -/
theorem C9_upload_size_limit_witness :
    upload_asset (UploadState.mk none [] []) [1, 1] ((2 : ℕ) : ℤ) =
      UploadResult.created
        { tmp := some 2, media := [] ++ [2], dbAssets := [] ++ [2] } 2 :=
  (C9_upload_size_limit (UploadState.mk none [] []) [1, 1] 2
    (by decide)).1 (by decide) (by decide)

/-- If the read loop rejects, the resulting state has no tmp file and the
loop never touched storage or the database. -/
theorem uploadLoop_error_state (mb : ℕ) (s : UploadState) :
    ∀ (chunks : List ℕ) (total written : ℕ) (s1 : UploadState),
    uploadLoop s mb chunks total written = Except.error s1 →
    s1 = { s with tmp := none } := by
  intro chunks
  induction chunks with
  | nil =>
    intro total written s1 h
    simp [uploadLoop] at h
  | cons c rest ih =>
    intro total written s1 h
    rw [show uploadLoop s mb (c :: rest) total written =
      (if c = 0 then Except.ok ({ s with tmp := some written }, total)
       else if mb ≠ 0 ∧ total + c > mb then Except.error { s with tmp := none }
       else uploadLoop s mb rest (total + c) (written + c)) from rfl] at h
    by_cases h0 : c = 0
    · rw [if_pos h0] at h; cases h
    · rw [if_neg h0] at h
      by_cases habort : mb ≠ 0 ∧ total + c > mb
      · rw [if_pos habort] at h
        exact (Except.error.inj h).symm
      · rw [if_neg habort] at h
        exact ih (total + c) (written + c) s1 h

/-- C10: a rejected oversize upload leaves the stored media files and the
database rows exactly as they were and deletes its temporary file. -/
theorem C10_upload_atomic (s0 : UploadState) (chunks : List ℕ)
    (mbRaw : ℤ) (s1 : UploadState)
    (h : upload_asset s0 chunks mbRaw = UploadResult.tooLarge s1) :
    s1.media = s0.media ∧ s1.dbAssets = s0.dbAssets ∧ s1.tmp = none := by
  have h' : (match uploadLoop { s0 with tmp := some 0 } (max 0 mbRaw).toNat
        chunks 0 0 with
      | Except.error s => UploadResult.tooLarge s
      | Except.ok (s, total) =>
        UploadResult.created
          { s with media := s.media ++ [total],
                   dbAssets := s.dbAssets ++ [total] } total) =
      UploadResult.tooLarge s1 := h
  rcases hloop : uploadLoop { s0 with tmp := some 0 } (max 0 mbRaw).toNat
      chunks 0 0 with s' | p
  · rw [hloop] at h'
    have hinj : UploadResult.tooLarge s' = UploadResult.tooLarge s1 := h'
    have hs1 : s1 = s' := (UploadResult.tooLarge.inj hinj).symm
    have hstate := uploadLoop_error_state (max 0 mbRaw).toNat _ chunks 0 0 s' hloop
    subst hs1
    rw [hstate]
    exact ⟨rfl, rfl, rfl⟩
  · rcases p with ⟨s2, t2⟩
    rw [hloop] at h'
    exact UploadResult.noConfusion h'

/-- Witness for `C10_upload_atomic`: a concrete rejected upload left media
and database untouched. -/
theorem C10_upload_atomic_witness :
    (UploadState.mk none [4] [9]).media = (UploadState.mk (some 7) [4] [9]).media ∧
    (UploadState.mk none [4] [9]).dbAssets = (UploadState.mk (some 7) [4] [9]).dbAssets ∧
    (UploadState.mk none [4] [9]).tmp = none :=
  C10_upload_atomic (UploadState.mk (some 7) [4] [9]) [3] 2
    (UploadState.mk none [4] [9]) (by decide)

/-- Witness for `C6_delete_asset_spec`: a present, unreferenced asset is
deleted. -/
theorem C6_delete_asset_spec_witness :
    delete_asset (AssetStore.mk [5] []) 5 =
      DeleteResult.deleted ⟨(List.erase [5] 5), []⟩ :=
  (C6_delete_asset_spec (AssetStore.mk [5] []) 5).2.2 (by decide) (by simp)

/-! ### C8 — the local storage round trip -/

theorem splitOnChar_ne_nil (sep : Char) (l : List Char) :
    splitOnChar sep l ≠ [] := by
  induction l with
  | nil => simp [splitOnChar]
  | cons c t ih =>
    simp only [splitOnChar]
    by_cases hc : c = sep
    · simp [hc]
    · rw [if_neg hc]
      rcases hsp : splitOnChar sep t with _ | ⟨h, r⟩ <;> simp

/-- Splitting distributes over a separator occurrence. -/
theorem splitOnChar_append_sep (sep : Char) (a b : List Char) :
    splitOnChar sep (a ++ sep :: b) =
      splitOnChar sep a ++ splitOnChar sep b := by
  induction a with
  | nil => simp [splitOnChar]
  | cons c t ih =>
    show splitOnChar sep (c :: (t ++ sep :: b)) = _
    simp only [splitOnChar, ih]
    by_cases hc : c = sep
    · simp [hc]
    · rw [if_neg hc, if_neg hc]
      rcases hsp : splitOnChar sep t with _ | ⟨h, r⟩
      · exact absurd hsp (splitOnChar_ne_nil sep t)
      · simp

/-- A separator-free string splits into itself. -/
theorem splitOnChar_no_sep (sep : Char) (l : List Char)
    (h : ∀ c ∈ l, c ≠ sep) : splitOnChar sep l = [l] := by
  induction l with
  | nil => rfl
  | cons c t ih =>
    have hc : c ≠ sep := h c (by simp)
    simp only [splitOnChar]
    rw [if_neg hc, ih (fun x hx => h x (by simp [hx]))]

theorem pathParts_append_sep (a b : List Char) :
    pathParts (a ++ '/' :: b) = pathParts a ++ pathParts b := by
  unfold pathParts
  rw [splitOnChar_append_sep, List.filter_append]

theorem pathParts_single (f : List Char) (hne : f ≠ [])
    (hslash : ∀ c ∈ f, c ≠ '/') (hdot : f ≠ ['.']) : pathParts f = [f] := by
  unfold pathParts
  rw [splitOnChar_no_sep _ _ hslash]
  simp [hne, hdot]

/-- A string whose head is a non-whitespace character strips to a string
with the same head. -/
theorem pyStrip_cons_of_not_ws (c : Char) (t : List Char)
    (hc : c.isWhitespace = false) :
    ∃ t', pyStrip (c :: t) = c :: t' := by
  unfold pyStrip
  rw [List.dropWhile_cons]
  simp only [hc, Bool.false_eq_true, if_false]
  have hlast : (c :: t).reverse.getLast? = some c := by
    rw [List.getLast?_reverse]
    rfl
  have hne : (c :: t).reverse.dropWhile Char.isWhitespace ≠ [] := by
    rw [ne_eq, List.dropWhile_eq_nil_iff]
    intro hall
    have hcmem : c ∈ (c :: t).reverse := by simp
    have := hall c hcmem
    rw [hc] at this
    cases this
  obtain ⟨pre, hpre⟩ := List.dropWhile_suffix
    (l := (c :: t).reverse) Char.isWhitespace
  have hlast2 : ((c :: t).reverse.dropWhile Char.isWhitespace).getLast? =
      some c := by
    rw [← hpre] at hlast
    rwa [List.getLast?_append_of_ne_nil] at hlast
    exact hne
  obtain ⟨t', ht'⟩ := List.getLast?_eq_some_iff.mp hlast2
  refine ⟨t'.reverse, ?_⟩
  rw [ht']
  simp

/-- A URI beginning with `/` is never remote. -/
theorem is_remote_uri_slash (t : List Char) :
    is_remote_uri ('/' :: t) = false := by
  obtain ⟨t', ht'⟩ := pyStrip_cons_of_not_ws '/' t (by decide)
  have h1 : (('h' : Char) == '/') = false := by decide
  have h2 : (('s' : Char) == '/') = false := by decide
  have h3 : (('g' : Char) == '/') = false := by decide
  have hl : Char.toLower '/' = '/' := by decide
  simp only [is_remote_uri, ht', pyLower, List.map_cons, hl, List.isPrefixOf,
    h1, h2, h3, Bool.false_and, Bool.or_self, Bool.false_or]

/-- Stripping the leading slashes of `"/media/..."`. -/
theorem lstrip_slash_media (R : List Char) :
    pyLStripChar '/' ('/' :: ('m' :: 'e' :: 'd' :: 'i' :: 'a' :: '/' :: R)) =
      'm' :: 'e' :: 'd' :: 'i' :: 'a' :: '/' :: R := by
  unfold pyLStripChar
  rw [List.dropWhile_cons, if_pos (by decide), List.dropWhile_cons,
    if_neg (by decide)]

/-- C8, counterexample: the round trip
`resolve_local_path(write_file(d, f, p))` yields the stored copy's path
`media_root/d/f`, which is not the source path `p` when `p` lies
elsewhere. -/
theorem C8_counterexample :
    resolve_local_path (LocalStorageBackend.mk [['r','o','o','t']])
        (write_file ['v','i','d'] ['a'] [['s','r','c']]) =
      Except.ok [['r','o','o','t'], ['v','i','d'], ['a']] ∧
    ([['r','o','o','t'], ['v','i','d'], ['a']] : FsPath) ≠ [['s','r','c']] :=
  ⟨rfl, by decide⟩

/-- C8, amended: the local-storage round trip resolves the written URI
`"/media/{d}/{f}"` to the stored copy's path `media_root/d/f`
(`write_file_target`); it yields the source path `p` back exactly when `p`
already is that target path (as for API uploads, whose tmp file lives at
`media_root/tmp/{f}`). -/
theorem C8_roundtrip (b : LocalStorageBackend) (d f : List Char) (p : FsPath)
    (hne : f ≠ []) (hslash : ∀ c ∈ f, c ≠ '/') (hdot : f ≠ ['.']) :
    resolve_local_path b (write_file d f p) =
      Except.ok (write_file_target b d f) ∧
    (resolve_local_path b (write_file d f p) = Except.ok p ↔
      p = write_file_target b d f) := by
  have hpf : pathParts f = [f] := pathParts_single f hne hslash hdot
  have hmedia : pathParts ['m','e','d','i','a'] = [['m','e','d','i','a']] := by
    decide
  have hppnil : pathParts ([] : List Char) = [] := by decide
  have hmain : resolve_local_path b (write_file d f p) =
      Except.ok (write_file_target b d f) := by
    unfold write_file write_file_target
    by_cases hd : pyStripChar '/' d = []
    · rw [if_pos hd, hd, hppnil]
      have huri : (['/','m','e','d','i','a','/'] ++ f) =
          '/' :: ('m' :: 'e' :: 'd' :: 'i' :: 'a' :: '/' :: f) := rfl
      rw [huri]
      unfold resolve_local_path
      rw [is_remote_uri_slash, if_neg (by simp), lstrip_slash_media f]
      rw [show ('m' :: 'e' :: 'd' :: 'i' :: 'a' :: '/' :: f) =
        (['m','e','d','i','a'] ++ '/' :: f) from rfl]
      rw [pathParts_append_sep, hmedia, hpf]
      simp
    · rw [if_neg hd]
      have huri : (['/','m','e','d','i','a','/'] ++ pyStripChar '/' d ++
          ['/'] ++ f) =
          '/' :: ('m' :: 'e' :: 'd' :: 'i' :: 'a' :: '/' ::
            (pyStripChar '/' d ++ '/' :: f)) := by
        simp
      rw [huri]
      unfold resolve_local_path
      rw [is_remote_uri_slash, if_neg (by simp), lstrip_slash_media]
      rw [show ('m' :: 'e' :: 'd' :: 'i' :: 'a' :: '/' ::
          (pyStripChar '/' d ++ '/' :: f)) =
        (['m','e','d','i','a'] ++ '/' :: (pyStripChar '/' d ++ '/' :: f))
        from rfl]
      rw [pathParts_append_sep, hmedia, pathParts_append_sep, hpf]
      simp
  refine ⟨hmain, ?_⟩
  rw [hmain]
  constructor
  · intro h
    exact (Except.ok.inj h).symm
  · intro h
    rw [h]

/-- Witness for `C8_roundtrip` at a concrete directory and filename. -/
theorem C8_roundtrip_witness :
    resolve_local_path (LocalStorageBackend.mk [['r']])
        (write_file ['v'] ['a'] [['q']]) =
      Except.ok (write_file_target (LocalStorageBackend.mk [['r']]) ['v'] ['a']) ∧
    (resolve_local_path (LocalStorageBackend.mk [['r']])
        (write_file ['v'] ['a'] [['q']]) = Except.ok [['q']] ↔
      ([['q']] : FsPath) =
        write_file_target (LocalStorageBackend.mk [['r']]) ['v'] ['a']) :=
  C8_roundtrip (LocalStorageBackend.mk [['r']]) ['v'] ['a'] [['q']]
    (by decide) (by decide) (by decide)

/-! ### C7 — speaker assignment -/

/-- Unfolding one step of the best-overlap fold. -/
theorem bestFold_cons (line : SubtitleLine) (s : SpeakerSegment)
    (rest : List SpeakerSegment) (a : Option (List Char) × ℚ) :
    bestSpeakerFold line (s :: rest) a =
      bestSpeakerFold line rest
        (if a.2 < overlapQ line s then (some s.speaker, overlapQ line s)
         else a) := rfl

/-- The fold never updates when no segment beats the running best. -/
theorem bestFold_no_update (line : SubtitleLine) :
    ∀ (segs : List SpeakerSegment) (a : Option (List Char) × ℚ),
    (∀ s ∈ segs, overlapQ line s ≤ a.2) →
    bestSpeakerFold line segs a = a := by
  intro segs
  induction segs with
  | nil => intro a _; rfl
  | cons s rest ih =>
    intro a h
    rw [bestFold_cons, if_neg (not_lt.mpr (h s (by simp)))]
    exact ih a (fun t ht => h t (by simp [ht]))

/-- When some segment beats the running best, the fold returns the first
segment attaining the maximal overlap. -/
theorem bestFold_argmax (line : SubtitleLine) :
    ∀ (segs : List SpeakerSegment) (a : Option (List Char) × ℚ),
    (∃ s ∈ segs, a.2 < overlapQ line s) →
    ∃ j, j < segs.length ∧
      bestSpeakerFold line segs a =
        (some (segs.getD j default).speaker,
          overlapQ line (segs.getD j default)) ∧
      (∀ s ∈ segs, overlapQ line s ≤ overlapQ line (segs.getD j default)) ∧
      (∀ i, i < j → overlapQ line (segs.getD i default) <
        overlapQ line (segs.getD j default)) ∧
      a.2 < overlapQ line (segs.getD j default) := by
  intro segs
  induction segs with
  | nil => rintro a ⟨s, hs, -⟩; cases hs
  | cons s rest ih =>
    intro a hex
    rw [bestFold_cons]
    by_cases hup : a.2 < overlapQ line s
    · rw [if_pos hup]
      by_cases hrest : ∃ t ∈ rest, overlapQ line s < overlapQ line t
      · obtain ⟨j', hj', heq, hmax, hfirst, hgt⟩ :=
          ih (some s.speaker, overlapQ line s) (by simpa using hrest)
        simp only at hgt
        refine ⟨j' + 1, by simpa using Nat.succ_lt_succ hj', ?_, ?_, ?_, ?_⟩
        · simpa using heq
        · intro t ht
          rcases List.mem_cons.mp ht with rfl | ht'
          · simpa using le_of_lt hgt
          · simpa using hmax t ht'
        · intro i hi
          cases i with
          | zero => simpa using hgt
          | succ i' =>
            have hi' : i' < j' := by omega
            simpa using hfirst i' hi'
        · exact lt_trans hup (by simpa using hgt)
      · push_neg at hrest
        rw [bestFold_no_update line rest _ (by simpa using hrest)]
        refine ⟨0, by simp, by simp, ?_, by omega, by simpa using hup⟩
        intro t ht
        rcases List.mem_cons.mp ht with rfl | ht'
        · simp
        · simpa using hrest t ht'
    · rw [if_neg hup]
      have hex' : ∃ t ∈ rest, a.2 < overlapQ line t := by
        obtain ⟨t, ht, hlt⟩ := hex
        rcases List.mem_cons.mp ht with rfl | ht'
        · exact absurd hlt hup
        · exact ⟨t, ht', hlt⟩
      obtain ⟨j', hj', heq, hmax, hfirst, hgt⟩ := ih a hex'
      refine ⟨j' + 1, by simpa using Nat.succ_lt_succ hj',
        by simpa using heq, ?_, ?_, by simpa using hgt⟩
      · intro t ht
        rcases List.mem_cons.mp ht with rfl | ht'
        · exact le_trans (not_lt.mp hup) (le_of_lt (by simpa using hgt))
        · simpa using hmax t ht'
      · intro i hi
        cases i with
        | zero =>
          exact lt_of_le_of_lt (not_lt.mp hup) (by simpa using hgt)
        | succ i' =>
          have hi' : i' < j' := by omega
          simpa using hfirst i' hi'

/-- C7, counterexample: with an empty segment list a line **keeps** its
existing speaker instead of getting `None`. -/
theorem C7_counterexample :
    assign_speakers_to_lines [⟨0, 1, [], some ['A']⟩] [] =
      [⟨0, 1, [], some ['A']⟩] ∧
    (some ['A'] ≠ (none : Option (List Char))) :=
  ⟨rfl, by simp⟩

/-- C7, amended: with a nonempty segment list each output line carries the
speaker of the first segment maximising the temporal overlap, or `None` when
no segment has positive overlap; with an **empty** segment list the lines
are returned with their existing speakers preserved. -/
theorem C7_assign_speakers (lines : List SubtitleLine)
    (segs : List SpeakerSegment) (hne : segs ≠ []) :
    assign_speakers_to_lines lines [] = lines ∧
    List.Forall₂ (fun l o =>
      o.start = l.start ∧ o.stop = l.stop ∧ o.words = l.words ∧
      ((∀ s ∈ segs, overlapQ l s ≤ 0) → o.speaker = none) ∧
      ((∃ s ∈ segs, 0 < overlapQ l s) →
        ∃ j, j < segs.length ∧
          o.speaker = some ((segs.getD j default).speaker) ∧
          (∀ s ∈ segs, overlapQ l s ≤ overlapQ l (segs.getD j default)) ∧
          (∀ i, i < j → overlapQ l (segs.getD i default) <
            overlapQ l (segs.getD j default))))
      lines (assign_speakers_to_lines lines segs) := by
  constructor
  · show List.map _ _ = _
    have hid : (fun (l : SubtitleLine) =>
        SubtitleLine.mk l.start l.stop l.words l.speaker) = id := by
      funext l; rfl
    rw [hid, List.map_id]
  · unfold assign_speakers_to_lines
    rw [if_neg hne]
    rw [List.forall₂_map_right_iff]
    rw [List.forall₂_same]
    intro l _
    refine ⟨rfl, rfl, rfl, ?_, ?_⟩
    · intro hall
      show (bestSpeakerFold l segs (none, 0)).1 = none
      rw [bestFold_no_update l segs (none, 0) (by simpa using hall)]
    · intro hex
      obtain ⟨j, hj, heq, hmax, hfirst, -⟩ :=
        bestFold_argmax l segs (none, 0) (by simpa using hex)
      refine ⟨j, hj, ?_, hmax, hfirst⟩
      show (bestSpeakerFold l segs (none, 0)).1 = _
      rw [heq]

/-- Witness for `C7_assign_speakers` at one line and two segments (the
second has the larger overlap and wins). -/
theorem C7_assign_speakers_witness :
    assign_speakers_to_lines [⟨0, 2, [], none⟩] [] = [⟨0, 2, [], none⟩] ∧
    List.Forall₂ (fun l o =>
      o.start = l.start ∧ o.stop = l.stop ∧ o.words = l.words ∧
      ((∀ s ∈ [SpeakerSegment.mk 0 1 ['B'], SpeakerSegment.mk (1/2) 2 ['C']],
          overlapQ l s ≤ 0) → o.speaker = none) ∧
      ((∃ s ∈ [SpeakerSegment.mk 0 1 ['B'], SpeakerSegment.mk (1/2) 2 ['C']],
          0 < overlapQ l s) →
        ∃ j, j < ([SpeakerSegment.mk 0 1 ['B'],
            SpeakerSegment.mk (1/2) 2 ['C']] : List SpeakerSegment).length ∧
          o.speaker = some (([SpeakerSegment.mk 0 1 ['B'],
            SpeakerSegment.mk (1/2) 2 ['C']].getD j default).speaker) ∧
          (∀ s ∈ [SpeakerSegment.mk 0 1 ['B'], SpeakerSegment.mk (1/2) 2 ['C']],
            overlapQ l s ≤ overlapQ l ([SpeakerSegment.mk 0 1 ['B'],
              SpeakerSegment.mk (1/2) 2 ['C']].getD j default)) ∧
          (∀ i, i < j → overlapQ l ([SpeakerSegment.mk 0 1 ['B'],
              SpeakerSegment.mk (1/2) 2 ['C']].getD i default) <
            overlapQ l ([SpeakerSegment.mk 0 1 ['B'],
              SpeakerSegment.mk (1/2) 2 ['C']].getD j default))))
      [⟨0, 2, [], none⟩]
      (assign_speakers_to_lines [⟨0, 2, [], none⟩]
        [SpeakerSegment.mk 0 1 ['B'], SpeakerSegment.mk (1/2) 2 ['C']]) :=
  C7_assign_speakers [⟨0, 2, [], none⟩]
    [SpeakerSegment.mk 0 1 ['B'], SpeakerSegment.mk (1/2) 2 ['C']] (by simp)

/-! ### C2 — subtitle line grouping invariants -/

/-- `strip()` never lengthens a string. -/
theorem pyStrip_length_le (cs : List Char) :
    (pyStrip cs).length ≤ cs.length := by
  unfold pyStrip
  calc ((cs.dropWhile Char.isWhitespace).reverse.dropWhile
          Char.isWhitespace).reverse.length
      = ((cs.dropWhile Char.isWhitespace).reverse.dropWhile
          Char.isWhitespace).length := by rw [List.length_reverse]
    _ ≤ (cs.dropWhile Char.isWhitespace).reverse.length :=
        (List.dropWhile_sublist _).length_le
    _ = (cs.dropWhile Char.isWhitespace).length := by rw [List.length_reverse]
    _ ≤ cs.length := (List.dropWhile_sublist _).length_le

/-- Invariant propagation through the `group_words` loop: every emitted line
is nonempty, multi-word lines respect the character, word-count and duration
budgets, and intra-line gaps are bounded. -/
theorem groupWordsAux_spec (cfg : GroupingConfig) :
    ∀ (rest : List Word), ∀ (cur : List Word) (curStart lastEnd : ℚ),
    cur ≠ [] →
    (2 ≤ cur.length → (joinWords cur).length ≤ cfg.max_chars_per_line ∧
      cur.length ≤ cfg.max_words_per_line ∧
      lastEnd - curStart ≤ cfg.max_duration) →
    List.Chain' (fun a b => b.start - a.stop ≤ cfg.max_gap) cur →
    (∃ lw, cur.getLast? = some lw ∧ lw.stop = lastEnd) →
    ∀ L ∈ groupWordsAux cfg rest cur curStart lastEnd,
      L.words ≠ [] ∧
      (2 ≤ L.words.length →
        L.text.length ≤ cfg.max_chars_per_line ∧
        L.words.length ≤ cfg.max_words_per_line ∧
        L.stop - L.start ≤ cfg.max_duration) ∧
      List.Chain' (fun a b => b.start - a.stop ≤ cfg.max_gap) L.words := by
  intro rest
  induction rest with
  | nil =>
    intro cur cs le h1 h2 h3 _ L hL
    simp only [groupWordsAux, List.mem_singleton] at hL
    subst hL
    refine ⟨h1, ?_, h3⟩
    intro h2len
    obtain ⟨hc, hw, hd⟩ := h2 h2len
    exact ⟨le_trans (pyStrip_length_le _) hc, hw, hd⟩
  | cons w ws ih =>
    intro cur cs le h1 h2 h3 hlast L hL
    simp only [groupWordsAux] at hL
    split at hL
    · rcases List.mem_cons.mp hL with rfl | hL'
      · refine ⟨h1, ?_, h3⟩
        intro h2len
        obtain ⟨hc, hw, hd⟩ := h2 h2len
        exact ⟨le_trans (pyStrip_length_le _) hc, hw, hd⟩
      · refine ih [w] w.start w.stop (by simp) (by intro h; simp at h) (by simp)
          ⟨w, by simp, rfl⟩ L hL'
    · rename_i hcond
      simp only [Bool.or_eq_true, decide_eq_true_eq, not_or] at hcond
      obtain ⟨⟨⟨hc1, hc2⟩, hc3⟩, hc4⟩ := hcond
      refine ih (cur ++ [w]) cs w.stop (by simp) ?_ ?_
        ⟨w, by simp, rfl⟩ L hL
      · intro _
        refine ⟨by omega, ?_, by linarith [not_lt.mp hc3]⟩
        have := not_lt.mp hc2
        simp only [List.length_append, List.length_singleton]
        omega
      · rw [List.chain'_append]
        refine ⟨h3, by simp, ?_⟩
        intro x hx y hy
        obtain ⟨lw, hlw, hstop⟩ := hlast
        rw [hlw] at hx
        simp only [Option.mem_some_iff] at hx
        simp only [List.head?_cons, Option.mem_some_iff] at hy
        subst hx
        subst hy
        rw [hstop]
        linarith [not_lt.mp hc4]

/-- C2, counterexample: a single word longer than `max_duration` (under a
config with `max_words_per_line = 0`) forms a line violating both the
word-count bound and the duration bound as unconditionally stated. -/
theorem C2_counterexample :
    group_words [Word.mk ['h','e','l','l','o','!'] 0 10]
        (GroupingConfig.mk 5 0 1 1) =
      [SubtitleLine.mk 0 10 [Word.mk ['h','e','l','l','o','!'] 0 10] none] ∧
    ¬((SubtitleLine.mk 0 10 [Word.mk ['h','e','l','l','o','!'] 0 10]
        none).words.length ≤ (GroupingConfig.mk 5 0 1 1).max_words_per_line) ∧
    ¬((SubtitleLine.mk 0 10 [Word.mk ['h','e','l','l','o','!'] 0 10]
          none).stop -
        (SubtitleLine.mk 0 10 [Word.mk ['h','e','l','l','o','!'] 0 10]
          none).start ≤ (GroupingConfig.mk 5 0 1 1).max_duration) := by
  refine ⟨rfl, by decide, by norm_num⟩

/-- C2, amended: every line emitted by `group_words` is nonempty and has all
intra-line gaps `≤ max_gap`; the character, word-count and duration bounds
hold for every line with at least two words (a single word is emitted as its
own line even when it alone exceeds those budgets). -/
theorem C2_group_words_invariants (ws : List Word) (cfg : GroupingConfig)
    (L : SubtitleLine) (hL : L ∈ group_words ws cfg) :
    L.words ≠ [] ∧
    (2 ≤ L.words.length →
      L.text.length ≤ cfg.max_chars_per_line ∧
      L.words.length ≤ cfg.max_words_per_line ∧
      L.stop - L.start ≤ cfg.max_duration) ∧
    List.Chain' (fun a b => b.start - a.stop ≤ cfg.max_gap) L.words := by
  cases ws with
  | nil => cases hL
  | cons w rest =>
    exact groupWordsAux_spec cfg rest [w] w.start w.stop (by simp)
      (by intro h; simp at h) (by simp) ⟨w, by simp, rfl⟩ L hL

/-- Witness for `C2_group_words_invariants` on a concrete two-word input. -/
theorem C2_group_words_invariants_witness :
    (SubtitleLine.mk 0 2 [Word.mk ['h','i'] 0 1, Word.mk ['y','o'] 1 2]
        none).words ≠ [] ∧
    (2 ≤ (SubtitleLine.mk 0 2 [Word.mk ['h','i'] 0 1, Word.mk ['y','o'] 1 2]
        none).words.length →
      (SubtitleLine.mk 0 2 [Word.mk ['h','i'] 0 1, Word.mk ['y','o'] 1 2]
          none).text.length ≤ (GroupingConfig.mk 10 5 6 1).max_chars_per_line ∧
      (SubtitleLine.mk 0 2 [Word.mk ['h','i'] 0 1, Word.mk ['y','o'] 1 2]
          none).words.length ≤ (GroupingConfig.mk 10 5 6 1).max_words_per_line ∧
      (SubtitleLine.mk 0 2 [Word.mk ['h','i'] 0 1, Word.mk ['y','o'] 1 2]
          none).stop -
        (SubtitleLine.mk 0 2 [Word.mk ['h','i'] 0 1, Word.mk ['y','o'] 1 2]
          none).start ≤ (GroupingConfig.mk 10 5 6 1).max_duration) ∧
    List.Chain' (fun a b => b.start - a.stop ≤ (GroupingConfig.mk 10 5 6 1).max_gap)
      (SubtitleLine.mk 0 2 [Word.mk ['h','i'] 0 1, Word.mk ['y','o'] 1 2]
        none).words :=
  C2_group_words_invariants [Word.mk ['h','i'] 0 1, Word.mk ['y','o'] 1 2]
    (GroupingConfig.mk 10 5 6 1)
    (SubtitleLine.mk 0 2 [Word.mk ['h','i'] 0 1, Word.mk ['y','o'] 1 2] none)
    (by
      norm_num [group_words, groupWordsAux, joinWords]
      have h5 : ([' '].intercalate [['h','i'], ['y','o']]).length = 5 := rfl
      rw [h5]
      norm_num)

/-! ### C5 — karaoke duration allocation -/

/-- Lists of positive naturals have sums at least their length. -/
theorem length_le_sum_of_one_le (l : List ℕ) (h : ∀ x ∈ l, 1 ≤ x) :
    l.length ≤ l.sum := by
  induction l with
  | nil => simp
  | cons x t ih =>
    have hx := h x (by simp)
    have ht := ih (fun y hy => h y (by simp [hy]))
    simp only [List.length_cons, List.sum_cons]
    omega

theorem sum_bumpAt : ∀ (durs : List ℕ) (i : ℕ), i < durs.length →
    (bumpAt durs i).sum = durs.sum + 1 := by
  intro durs
  induction durs with
  | nil => intro i h; cases h
  | cons d t ih =>
    intro i h
    cases i with
    | zero => simp [bumpAt, List.sum_cons]; omega
    | succ i' =>
      have hrec := ih i' (by simpa using Nat.lt_of_succ_lt_succ h)
      simp only [bumpAt, List.set, List.getD_cons_succ, List.sum_cons] at hrec ⊢
      omega

theorem length_bumpAt (durs : List ℕ) (i : ℕ) :
    (bumpAt durs i).length = durs.length := by
  simp [bumpAt]

theorem one_le_bumpAt (durs : List ℕ) (i : ℕ) (h : ∀ x ∈ durs, 1 ≤ x) :
    ∀ x ∈ bumpAt durs i, 1 ≤ x := by
  intro x hx
  rcases List.mem_or_eq_of_mem_set hx with hm | rfl
  · exact h x hm
  · have : i < durs.length ∨ durs.length ≤ i := Nat.lt_or_ge i durs.length
    rcases this with hlt | hge
    · omega
    · omega

theorem sum_decAt : ∀ (durs : List ℕ) (i : ℕ), 0 < durs.getD i 0 →
    (durs.set i (durs.getD i 0 - 1)).sum + 1 = durs.sum := by
  intro durs
  induction durs with
  | nil => intro i h; simp at h
  | cons d t ih =>
    intro i h
    cases i with
    | zero => simp only [List.getD_cons_zero] at h ⊢; simp [List.sum_cons]; omega
    | succ i' =>
      have hrec := ih i' (by simpa using h)
      simp only [List.getD_cons_succ] at h ⊢
      simp only [List.set, List.sum_cons]
      omega

theorem length_decAt (durs : List ℕ) (i v : ℕ) :
    (durs.set i v).length = durs.length := List.length_set durs i v

/-- `addLoop` adds exactly `delta` centiseconds (when the index order is
nonempty and in range). -/
theorem addLoop_sum :
    ∀ (delta : ℕ) (order cur durs : List ℕ), order ≠ [] →
    (∀ i ∈ order, i < durs.length) → (∀ i ∈ cur, i < durs.length) →
    (addLoop order delta cur durs).sum = durs.sum + delta := by
  intro delta
  induction delta with
  | zero => intro order cur durs _ _ _; rfl
  | succ d ih =>
    intro order cur durs hne hordur hcur
    cases cur with
    | nil =>
      rcases order with _ | ⟨idx, rest⟩
      · exact absurd rfl hne
      · show (addLoop (idx :: rest) d rest (bumpAt durs idx)).sum =
          durs.sum + (d + 1)
        have hidx : idx < durs.length := hordur idx (by simp)
        rw [ih (idx :: rest) rest (bumpAt durs idx) (by simp)
          (fun i hi => by rw [length_bumpAt]; exact hordur i hi)
          (fun i hi => by rw [length_bumpAt]; exact hordur i (by simp [hi]))]
        rw [sum_bumpAt durs idx hidx]
        omega
    | cons idx rest =>
      show (addLoop order d rest (bumpAt durs idx)).sum = durs.sum + (d + 1)
      have hidx : idx < durs.length := hcur idx (by simp)
      rw [ih order rest (bumpAt durs idx) hne
        (fun i hi => by rw [length_bumpAt]; exact hordur i hi)
        (fun i hi => by rw [length_bumpAt]; exact hcur i (by simp [hi]))]
      rw [sum_bumpAt durs idx hidx]
      omega

/-- `addLoop` keeps every duration at least 1. -/
theorem addLoop_one_le :
    ∀ (delta : ℕ) (order cur durs : List ℕ),
    (∀ x ∈ durs, 1 ≤ x) → ∀ x ∈ addLoop order delta cur durs, 1 ≤ x := by
  intro delta
  induction delta with
  | zero => intro order cur durs h; exact h
  | succ d ih =>
    intro order cur durs h
    cases cur with
    | nil =>
      rcases order with _ | ⟨idx, rest⟩
      · exact h
      · show ∀ x ∈ addLoop (idx :: rest) d rest (bumpAt durs idx), 1 ≤ x
        exact ih (idx :: rest) rest (bumpAt durs idx) (one_le_bumpAt durs idx h)
    | cons idx rest =>
      show ∀ x ∈ addLoop order d rest (bumpAt durs idx), 1 ≤ x
      exact ih order rest (bumpAt durs idx) (one_le_bumpAt durs idx h)

/-- `addLoop` preserves the number of tokens. -/
theorem addLoop_length :
    ∀ (delta : ℕ) (order cur durs : List ℕ),
    (addLoop order delta cur durs).length = durs.length := by
  intro delta
  induction delta with
  | zero => intro order cur durs; rfl
  | succ d ih =>
    intro order cur durs
    cases cur with
    | nil =>
      rcases order with _ | ⟨idx, rest⟩
      · rfl
      · show (addLoop (idx :: rest) d rest (bumpAt durs idx)).length = _
        rw [ih (idx :: rest) rest (bumpAt durs idx), length_bumpAt]
    | cons idx rest =>
      show (addLoop order d rest (bumpAt durs idx)).length = _
      rw [ih order rest (bumpAt durs idx), length_bumpAt]

theorem sum_eq_length_of_all_one (l : List ℕ) (h : ∀ x ∈ l, x = 1) :
    l.sum = l.length := by
  induction l with
  | nil => rfl
  | cons x t ih =>
    have hx := h x (by simp)
    have ht := ih (fun y hy => h y (by simp [hy]))
    simp only [List.sum_cons, List.length_cons]
    omega

/-- One removal pass: accounting of the removed centiseconds, plus
preservation of length and of the all-ones lower bound. -/
theorem remPass_spec :
    ∀ (order durs : List ℕ) (need : ℕ),
    (remPass order durs need).1.sum + (remPass order durs need).2 = durs.sum ∧
    (remPass order durs need).2 ≤ need ∧
    (remPass order durs need).1.length = durs.length ∧
    ((∀ x ∈ durs, 1 ≤ x) → ∀ x ∈ (remPass order durs need).1, 1 ≤ x) := by
  intro order
  induction order with
  | nil =>
    intro durs need
    exact ⟨by simp [remPass], by simp [remPass], by simp [remPass],
      fun h => by simpa [remPass] using h⟩
  | cons idx rest ih =>
    intro durs need
    by_cases h0 : need = 0
    · subst h0
      simp only [remPass, if_pos rfl]
      exact ⟨by simp, le_refl 0, rfl, fun h => h⟩
    · by_cases hgt : 1 < durs.getD idx 0
      · have hred : remPass (idx :: rest) durs need =
            ((remPass rest (durs.set idx (durs.getD idx 0 - 1)) (need - 1)).1,
             (remPass rest (durs.set idx (durs.getD idx 0 - 1)) (need - 1)).2
              + 1) := by
          simp only [remPass]
          rw [if_neg h0, if_pos hgt]
        have key := ih (durs.set idx (durs.getD idx 0 - 1)) (need - 1)
        have hdec := sum_decAt durs idx (by omega)
        rw [hred]
        refine ⟨?_, ?_, ?_, ?_⟩
        · simp only []
          have := key.1
          omega
        · have := key.2.1
          simp only []
          omega
        · simp only []
          rw [key.2.2.1, List.length_set]
        · intro h x hx
          refine key.2.2.2 ?_ x hx
          intro y hy
          rcases List.mem_or_eq_of_mem_set hy with hm | rfl
          · exact h y hm
          · omega
      · have hred : remPass (idx :: rest) durs need = remPass rest durs need := by
          rw [show remPass (idx :: rest) durs need =
            (if need = 0 then (durs, 0)
             else if 1 < durs.getD idx 0 then
               ((remPass rest (durs.set idx (durs.getD idx 0 - 1)) (need - 1)).1,
                (remPass rest (durs.set idx (durs.getD idx 0 - 1))
                  (need - 1)).2 + 1)
             else remPass rest durs need) from rfl]
          rw [if_neg h0, if_neg hgt]
        rw [hred]
        exact ih durs need

/-- A pass that removes nothing (with still-positive need) leaves the
durations unchanged and certifies that every indexed duration is at most
one. -/
theorem remPass_zero_removed :
    ∀ (order durs : List ℕ) (need : ℕ), need ≠ 0 →
    (remPass order durs need).2 = 0 →
    (remPass order durs need).1 = durs ∧ ∀ idx ∈ order, durs.getD idx 0 ≤ 1 := by
  intro order
  induction order with
  | nil => intro durs need _ _; exact ⟨by simp [remPass], by simp⟩
  | cons idx rest ih =>
    intro durs need h0 hz
    by_cases hgt : 1 < durs.getD idx 0
    · exfalso
      have hred : (remPass (idx :: rest) durs need).2 =
          (remPass rest (durs.set idx (durs.getD idx 0 - 1)) (need - 1)).2
            + 1 := by
        simp only [remPass]
        rw [if_neg h0, if_pos hgt]
      omega
    · have hred : remPass (idx :: rest) durs need = remPass rest durs need := by
        rw [show remPass (idx :: rest) durs need =
          (if need = 0 then (durs, 0)
           else if 1 < durs.getD idx 0 then
             ((remPass rest (durs.set idx (durs.getD idx 0 - 1)) (need - 1)).1,
              (remPass rest (durs.set idx (durs.getD idx 0 - 1))
                (need - 1)).2 + 1)
           else remPass rest durs need) from rfl]
        rw [if_neg h0, if_neg hgt]
      rw [hred] at hz ⊢
      obtain ⟨hd, hb⟩ := ih durs need h0 hz
      refine ⟨hd, ?_⟩
      intro i hi
      rcases List.mem_cons.mp hi with rfl | hi'
      · omega
      · exact hb i hi'

/-- The removal loop reaches the target sum exactly: with every index
covered by `order`, all durations at least 1 and the target at least the
token count, the loop removes precisely `need` centiseconds. -/
theorem remLoop_spec (order : List ℕ) :
    ∀ (need : ℕ) (durs : List ℕ) (total : ℕ),
    (∀ x ∈ durs, 1 ≤ x) →
    (∀ j, j < durs.length → j ∈ order) →
    durs.length ≤ total →
    durs.sum = total + need →
    (remLoop order durs need).sum = total ∧
    (∀ x ∈ remLoop order durs need, 1 ≤ x) ∧
    (remLoop order durs need).length = durs.length := by
  intro need
  induction need using Nat.strong_induction_on with
  | _ need ih =>
    intro durs total h1 hcov hlen hsum
    by_cases h0 : need = 0
    · subst h0
      rw [show remLoop order durs 0 = durs from by rw [remLoop]; simp]
      exact ⟨by omega, h1, rfl⟩
    · have hpass := remPass_spec order durs need
      by_cases hz : (remPass order durs need).2 = 0
      · exfalso
        obtain ⟨-, hb⟩ := remPass_zero_removed order durs need h0 hz
        have hall1 : ∀ x ∈ durs, x = 1 := by
          intro x hx
          obtain ⟨j, hj, hget⟩ := List.mem_iff_getElem.mp hx
          have hgd : durs.getD j 0 = x := by
            rw [List.getD_eq_getElem durs 0 hj, hget]
          have := hb j (hcov j hj)
          have hge := h1 x hx
          omega
        have := sum_eq_length_of_all_one durs hall1
        omega
      · have hred : remLoop order durs need =
            remLoop order (remPass order durs need).1
              (need - (remPass order durs need).2) := by
          rw [remLoop]
          simp [h0, hz]
        rw [hred]
        have hlt : need - (remPass order durs need).2 < need := by
          have := hpass.2.1
          omega
        have hrec := ih _ hlt (remPass order durs need).1 total
          (hpass.2.2.2 h1)
          (fun j hj => hcov j (by rwa [hpass.2.2.1] at hj))
          (by rw [hpass.2.2.1]; exact hlen)
          (by have hs := hpass.1; have hle := hpass.2.1; omega)
        exact ⟨hrec.1, hrec.2.1, by rw [hrec.2.2, hpass.2.2.1]⟩

theorem allocateInit_facts (tokens : List (List Char)) (total : ℕ) :
    (allocateInit tokens total).length = tokens.length ∧
    ∀ x ∈ allocateInit tokens total, 1 ≤ x := by
  constructor
  · simp [allocateInit, karaokeWeights]
  · intro x hx
    obtain ⟨w, hw, rfl⟩ := List.mem_map.mp hx
    exact Nat.le_max_left 1 _

theorem allocateOrder_facts (tokens : List (List Char)) :
    (∀ j, j < tokens.length → j ∈ allocateOrder tokens) ∧
    (∀ i ∈ allocateOrder tokens, i < tokens.length) ∧
    (allocateOrder tokens).length = tokens.length := by
  have hperm := List.mergeSort_perm (List.range tokens.length)
    (fun i j => decide ((karaokeWeights tokens).getD j 0 ≤
      (karaokeWeights tokens).getD i 0))
  refine ⟨?_, ?_, ?_⟩
  · intro j hj
    exact hperm.mem_iff.mpr (List.mem_range.mpr hj)
  · intro i hi
    exact List.mem_range.mp (hperm.mem_iff.mp hi)
  · unfold allocateOrder
    rw [hperm.length_eq, List.length_range]

/-- The removal loop keeps every duration at least 1. -/
theorem remLoop_one_le (order : List ℕ) :
    ∀ (need : ℕ) (durs : List ℕ), (∀ x ∈ durs, 1 ≤ x) →
    ∀ x ∈ remLoop order durs need, 1 ≤ x := by
  intro need
  induction need using Nat.strong_induction_on with
  | _ need ih =>
    intro durs h1
    by_cases h0 : need = 0
    · subst h0
      rw [show remLoop order durs 0 = durs from by rw [remLoop]; simp]
      exact h1
    · have hpass := remPass_spec order durs need
      by_cases hz : (remPass order durs need).2 = 0
      · rw [show remLoop order durs need = (remPass order durs need).1 from by
          rw [remLoop]; simp [h0, hz]]
        exact hpass.2.2.2 h1
      · rw [show remLoop order durs need =
            remLoop order (remPass order durs need).1
              (need - (remPass order durs need).2) from by
          rw [remLoop]; simp [h0, hz]]
        have hlt : need - (remPass order durs need).2 < need := by
          have := hpass.2.1
          omega
        exact ih _ hlt _ (hpass.2.2.2 h1)

/-- Every allocated duration is at least one centisecond. -/
theorem allocate_one_le (tokens : List (List Char)) (total_cs : ℤ) :
    ∀ x ∈ _allocate_karaoke_durations_cs tokens total_cs, 1 ≤ x := by
  unfold _allocate_karaoke_durations_cs
  by_cases hne : tokens = []
  · rw [if_pos hne]
    intro x hx
    cases hx
  · rw [if_neg hne]
    by_cases hlt : (if total_cs ≤ 0 then tokens.length else total_cs.toNat) <
        tokens.length
    · rw [if_pos hlt]
      intro x hx
      rw [List.eq_of_mem_replicate hx]
    · rw [if_neg hlt]
      unfold allocateDistribute
      set T := if total_cs ≤ 0 then tokens.length else total_cs.toNat
      have hinit := allocateInit_facts tokens T
      by_cases hsle : (allocateInit tokens T).sum ≤ T
      · rw [if_pos hsle]
        exact addLoop_one_le _ _ _ _ hinit.2
      · rw [if_neg hsle]
        exact remLoop_one_le _ _ _ hinit.2

/-- Sum and length of the allocated durations: with nonempty tokens and a
positive budget the sum is exactly `max total_cs (number of tokens)`. -/
theorem allocate_spec (tokens : List (List Char)) (total_cs : ℤ)
    (hne : tokens ≠ []) (hpos : 1 ≤ total_cs) :
    (_allocate_karaoke_durations_cs tokens total_cs).sum =
      max total_cs.toNat tokens.length ∧
    (_allocate_karaoke_durations_cs tokens total_cs).length = tokens.length := by
  have hn0 : ¬ total_cs ≤ 0 := by omega
  unfold _allocate_karaoke_durations_cs
  rw [if_neg hne]
  simp only [if_neg hn0]
  set T := total_cs.toNat with hT
  by_cases hlt : T < tokens.length
  · rw [if_pos hlt]
    constructor
    · have : (List.replicate tokens.length 1).sum = tokens.length := by
        simp [List.sum_replicate]
      rw [this]
      omega
    · simp
  · rw [if_neg hlt]
    have hTlen : tokens.length ≤ T := le_of_not_lt hlt
    have hlen0 : (allocateOrder tokens).length ≠ 0 := by
      rw [(allocateOrder_facts tokens).2.2]
      simpa using hne
    have horder := allocateOrder_facts tokens
    have hinit := allocateInit_facts tokens T
    unfold allocateDistribute
    by_cases hsle : (allocateInit tokens T).sum ≤ T
    · rw [if_pos hsle]
      have hsum := addLoop_sum (T - (allocateInit tokens T).sum)
        (allocateOrder tokens) (allocateOrder tokens) (allocateInit tokens T)
        (fun h => hlen0 (by rw [h]; rfl))
        (fun i hi => by rw [hinit.1]; exact horder.2.1 i hi)
        (fun i hi => by rw [hinit.1]; exact horder.2.1 i hi)
      constructor
      · rw [hsum]
        omega
      · rw [addLoop_length, hinit.1]
    · rw [if_neg hsle]
      have hrem := remLoop_spec (allocateOrder tokens)
        ((allocateInit tokens T).sum - T) (allocateInit tokens T) T
        hinit.2
        (fun j hj => horder.1 j (by rwa [hinit.1] at hj))
        (by rw [hinit.1]; exact hTlen)
        (by omega)
      constructor
      · rw [hrem.1]
        omega
      · rw [hrem.2.2, hinit.1]

/-- Every token produced by `\S+` matching starts with a non-whitespace
character. -/
theorem findTokens_head (cs : List Char) :
    ∀ t ∈ findTokens cs, ∃ c r, t = c :: r ∧ c.isWhitespace = false := by
  induction cs using findTokens.induct with
  | case1 =>
    intro t ht
    rw [show findTokens [] = [] from by rw [findTokens]] at ht
    cases ht
  | case2 c rest hws ih =>
    intro t ht
    rw [show findTokens (c :: rest) = findTokens rest from by
      rw [findTokens]; simp [hws]] at ht
    exact ih t ht
  | case3 c rest hws ih =>
    intro t ht
    rw [show findTokens (c :: rest) =
        (c :: rest.takeWhile (fun d => ¬ d.isWhitespace)) ::
          findTokens (rest.dropWhile (fun d => ¬ d.isWhitespace)) from by
      rw [findTokens]; simp [hws]] at ht
    rcases List.mem_cons.mp ht with rfl | ht'
    · exact ⟨c, _, rfl, by simpa using hws⟩
    · exact ih t ht'

/-- Tokens never strip to the empty string (they are nonempty and start
with a visible character). -/
theorem findTokens_strip_ne (cs : List Char) :
    ∀ t ∈ findTokens cs, pyStrip t ≠ [] := by
  intro t ht
  obtain ⟨c, r, rfl, hc⟩ := findTokens_head cs t ht
  obtain ⟨t', ht'⟩ := pyStrip_cons_of_not_ws c r hc
  rw [ht']
  simp

/-- The per-line centisecond budget is always at least one. -/
theorem lineTotalCs_pos (l : SubtitleLine) : 1 ≤ lineTotalCs l := by
  have h1 : (1 : ℚ) ≤ max (1 / 100) l.duration * 100 := by
    have hle : (1 / 100 : ℚ) ≤ max (1 / 100) l.duration := le_max_left _ _
    calc (1 : ℚ) = (1 / 100) * 100 := by norm_num
      _ ≤ max (1 / 100) l.duration * 100 :=
          mul_le_mul_of_nonneg_right hle (by norm_num)
  have hf : 1 ≤ ⌊max (1 / 100) l.duration * 100⌋ := by
    rw [Int.le_floor]
    exact_mod_cast h1
  simp only [lineTotalCs, pyRound]
  split
  · exact hf
  · split
    · omega
    · split <;> omega

/-- C5, amended: every emitted karaoke duration is at least one centisecond
(so the sum is at least the token count); in the synthesized branch (at most
one timed word) the durations sum to exactly
`max(total line centiseconds, token count)`.  With two or more timed words
each duration is `max(1, round((w.end - w.start) * 100))`, and the sum
tracks the words' own durations rather than the line length. -/
theorem C5_karaoke_durations (l : SubtitleLine) :
    (∀ x ∈ karaokeDursCs l, 1 ≤ x) ∧
    (karaokeDursCs l).length ≤ (karaokeDursCs l).sum ∧
    (l.words.length ≤ 1 →
      (karaokeDursCs l).sum =
        if tokenize_for_karaoke l.text = [] then 0
        else max (lineTotalCs l).toNat (tokenize_for_karaoke l.text).length) := by
  have hge : ∀ x ∈ karaokeDursCs l, 1 ≤ x := by
    unfold karaokeDursCs
    by_cases hw : l.words.length > 1
    · rw [if_pos hw]
      intro x hx
      obtain ⟨td, hmem, rfl⟩ := List.mem_map.mp hx
      obtain ⟨hmem2, -⟩ := List.mem_filter.mp hmem
      obtain ⟨w, -, heq⟩ := List.mem_map.mp hmem2
      have hd : td.2 =
          (max 1 (pyRound (max 0 (w.stop - w.start) * 100))).toNat := by
        rw [← heq]
      rw [hd]
      have h1 : (1 : ℤ) ≤ max 1 (pyRound (max 0 (w.stop - w.start) * 100)) :=
        le_max_left _ _
      omega
    · rw [if_neg hw]
      intro x hx
      obtain ⟨td, hmem, rfl⟩ := List.mem_map.mp hx
      obtain ⟨hmem2, -⟩ := List.mem_filter.mp hmem
      have hzip := List.of_mem_zip
        (show (td.1, td.2) ∈ _ from by simpa using hmem2)
      exact allocate_one_le _ _ td.2 hzip.2
  refine ⟨hge, length_le_sum_of_one_le _ hge, ?_⟩
  intro hle
  have hw : ¬ l.words.length > 1 := by omega
  simp only [karaokeDursCs, if_neg hw]
  by_cases htok : tokenize_for_karaoke l.text = []
  · rw [htok]
    simp [htok]
  · rw [if_neg htok]
    have hstrip : ∀ td ∈ (tokenize_for_karaoke l.text).zip
        (_allocate_karaoke_durations_cs (tokenize_for_karaoke l.text)
          (lineTotalCs l)), decide (pyStrip td.1 ≠ []) = true := by
      intro td htd
      have hmem := (List.of_mem_zip
        (show (td.1, td.2) ∈ _ from by simpa using htd)).1
      simpa using findTokens_strip_ne (pyStrip l.text) td.1 hmem
    rw [List.filter_eq_self.mpr hstrip]
    have hspec := allocate_spec (tokenize_for_karaoke l.text) (lineTotalCs l)
      htok (lineTotalCs_pos l)
    rw [show (fun (td : List Char × ℕ) => td.2) = Prod.snd from rfl]
    rw [List.map_snd_zip _ _ (le_of_eq hspec.2)]
    exact hspec.1

/-- Evaluate `pyRound` when the fractional part is below one half. -/
theorem pyRound_eval (q : ℚ) (f : ℤ) (h1 : ⌊q⌋ = f) (h2 : q - f < 1 / 2) :
    pyRound q = f := by
  simp only [pyRound, h1]
  rw [if_pos h2]

/-- `pyRound` is the identity on integers. -/
theorem pyRound_int (n : ℤ) : pyRound (n : ℚ) = n := by
  apply pyRound_eval _ n (Int.floor_intCast n)
  norm_num

/-- C5, counterexample: with two timed words `('a' : [0, 0.001])` and
`('b' : [5, 6])` in a line spanning `[0, 6]`, the emitted durations are
`[1, 100]` — the first token is clamped to 1 cs although
`round((end-start)*100) = 0`, and the sum `101` is nowhere near the line's
600 centiseconds (the gap between the words is not covered). -/
theorem C5_counterexample :
    karaokeDursCs (SubtitleLine.mk 0 6
      [Word.mk ['a'] 0 (1 / 1000), Word.mk ['b'] 5 6] none) = [1, 100] ∧
    pyRound (max 0 ((Word.mk ['a'] 0 ((1 : ℚ) / 1000)).stop -
      (Word.mk ['a'] 0 ((1 : ℚ) / 1000)).start) * 100) = 0 ∧
    lineTotalCs (SubtitleLine.mk 0 6
      [Word.mk ['a'] 0 (1 / 1000), Word.mk ['b'] 5 6] none) = 600 ∧
    ([1, 100].sum : ℕ) = 101 ∧ (101 : ℕ) ≠ 600 := by
  have hr1 : pyRound (max 0 ((1 : ℚ) / 1000 - 0) * 100) = 0 := by
    rw [show max (0 : ℚ) ((1 : ℚ) / 1000 - 0) * 100 = 1 / 10 by
      rw [max_eq_right (by norm_num : (0 : ℚ) ≤ 1 / 1000 - 0)]; norm_num]
    apply pyRound_eval _ 0
    · rw [show (0 : ℤ) = ⌊(0 : ℚ)⌋ by norm_num]
      apply Int.floor_eq_iff.mpr
      · norm_num
    · norm_num
  have hr2 : pyRound (max 0 ((6 : ℚ) - 5) * 100) = 100 := by
    rw [show max (0 : ℚ) ((6 : ℚ) - 5) * 100 = ((100 : ℤ) : ℚ) by
      rw [max_eq_right (by norm_num : (0 : ℚ) ≤ 6 - 5)]; norm_num]
    exact pyRound_int 100
  have hr3 : lineTotalCs (SubtitleLine.mk 0 6
      [Word.mk ['a'] 0 (1 / 1000), Word.mk ['b'] 5 6] none) = 600 := by
    unfold lineTotalCs SubtitleLine.duration
    rw [show max (1 / 100 : ℚ)
        (max 0 ((SubtitleLine.mk 0 6
          [Word.mk ['a'] 0 (1 / 1000), Word.mk ['b'] 5 6] none).stop -
         (SubtitleLine.mk 0 6
          [Word.mk ['a'] 0 (1 / 1000), Word.mk ['b'] 5 6] none).start)) * 100 =
        ((600 : ℤ) : ℚ) by norm_num]
    exact pyRound_int 600
  refine ⟨?_, by simpa using hr1, hr3, by norm_num, by norm_num⟩
  have hcond : (SubtitleLine.mk 0 6
      [Word.mk ['a'] 0 (1 / 1000), Word.mk ['b'] 5 6] none).words.length > 1 := by
    simp
  simp only [karaokeDursCs, if_pos hcond, List.map_cons, List.map_nil]
  rw [hr1, hr2]
  have ha : pyStrip ['a'] = ['a'] := by decide
  have hb : pyStrip ['b'] = ['b'] := by decide
  norm_num [List.filter, ha, hb]
  decide

/-- Witness for `C5_karaoke_durations`: a one-word line takes the
synthesized branch and its duration sum matches the line budget. -/
theorem C5_karaoke_durations_witness :
    (karaokeDursCs (SubtitleLine.mk 0 3 [Word.mk ['h','e','y'] 0 3] none)).sum =
      if tokenize_for_karaoke
          (SubtitleLine.mk 0 3 [Word.mk ['h','e','y'] 0 3] none).text = []
      then 0
      else max (lineTotalCs
          (SubtitleLine.mk 0 3 [Word.mk ['h','e','y'] 0 3] none)).toNat
        (tokenize_for_karaoke
          (SubtitleLine.mk 0 3 [Word.mk ['h','e','y'] 0 3] none).text).length :=
  (C5_karaoke_durations
    (SubtitleLine.mk 0 3 [Word.mk ['h','e','y'] 0 3] none)).2.2 (by norm_num)

/-! ### C1 — `select_top` -/

/-- The claim's separation predicate is symmetric. -/
theorem SepBy.symm {gap : ℚ} {a b : SegmentCandidate} :
    SepBy gap a b → SepBy gap b a := Or.symm

theorem candLe_trans (a b c : SegmentCandidate)
    (hab : decide (a.stop < b.stop ∨ (a.stop = b.stop ∧ a.start ≤ b.start)) = true)
    (hbc : decide (b.stop < c.stop ∨ (b.stop = c.stop ∧ b.start ≤ c.start)) = true) :
    decide (a.stop < c.stop ∨ (a.stop = c.stop ∧ a.start ≤ c.start)) = true := by
  simp only [decide_eq_true_eq] at *
  rcases hab with h1 | ⟨h1, h2⟩ <;> rcases hbc with h3 | ⟨h3, h4⟩
  · exact Or.inl (lt_trans h1 h3)
  · exact Or.inl (h3 ▸ h1)
  · exact Or.inl (h1 ▸ h3)
  · exact Or.inr ⟨h1.trans h3, le_trans h2 h4⟩

theorem candLe_total (a b : SegmentCandidate) :
    (decide (a.stop < b.stop ∨ (a.stop = b.stop ∧ a.start ≤ b.start)) ||
     decide (b.stop < a.stop ∨ (b.stop = a.stop ∧ b.start ≤ a.start))) = true := by
  simp only [Bool.or_eq_true, decide_eq_true_eq]
  rcases lt_trichotomy a.stop b.stop with h | h | h
  · exact Or.inl (Or.inl h)
  · rcases le_total a.start b.start with h2 | h2
    · exact Or.inl (Or.inr ⟨h, h2⟩)
    · exact Or.inr (Or.inr ⟨h.symm, h2⟩)
  · exact Or.inr (Or.inl h)

theorem sortByEndStart_perm (l : List SegmentCandidate) :
    (sortByEndStart l).Perm l :=
  List.mergeSort_perm l _

/-- The sorted interval list is nondecreasing in `stop`. -/
theorem sortByEndStart_sorted (l : List SegmentCandidate) :
    (sortByEndStart l).Pairwise (fun a b => a.stop ≤ b.stop) := by
  have h := List.sorted_mergeSort candLe_trans candLe_total l
  refine h.imp ?_
  intro a b hab
  simp only [decide_eq_true_eq] at hab
  rcases hab with h1 | ⟨h1, -⟩
  · exact le_of_lt h1
  · exact le_of_eq h1

/-- In a `stop`-sorted list, the elements with `stop ≤ cutoff` form a
prefix of length `countP`. -/
theorem sorted_filter_eq_take (cutoff : ℚ) :
    ∀ (l : List SegmentCandidate),
    l.Pairwise (fun a b => a.stop ≤ b.stop) →
    l.filter (fun c => decide (c.stop ≤ cutoff)) =
      l.take (l.countP (fun c => decide (c.stop ≤ cutoff))) := by
  intro l
  induction l with
  | nil => intro _; rfl
  | cons c t ih =>
    intro hs
    rcases List.pairwise_cons.mp hs with ⟨hc, ht⟩
    by_cases hP : c.stop ≤ cutoff
    · have hPd : decide (c.stop ≤ cutoff) = true := by simpa using hP
      rw [List.filter_cons, List.countP_cons, hPd]
      simp only [if_true, ite_true]
      rw [List.take_succ_cons, ih ht]
    · have hPd : decide (c.stop ≤ cutoff) = false := by simpa using hP
      have hnone : t.countP (fun c => decide (c.stop ≤ cutoff)) = 0 := by
        rw [List.countP_eq_zero]
        intro x hx
        simp only [decide_eq_true_eq]
        intro hxc
        exact hP (le_trans (hc x hx) hxc)
      have hfil : t.filter (fun c => decide (c.stop ≤ cutoff)) = [] := by
        rw [List.filter_eq_nil_iff]
        intro x hx
        simp only [decide_eq_true_eq]
        intro hxc
        exact hP (le_trans (hc x hx) hxc)
      rw [List.filter_cons, List.countP_cons, hPd]
      simp only [Bool.false_eq_true, ite_false, Nat.add_zero, hnone, hfil]
      rfl

theorem predCount_le (gap : ℚ) (iv : List SegmentCandidate) (i : ℕ) :
    predCount gap iv i ≤ i := by
  unfold predCount
  exact le_trans (List.countP_le_length _) (by simp)

/-- The predecessor prefix is exactly the filtered prefix. -/
theorem take_predCount_eq_filter (gap : ℚ) (iv : List SegmentCandidate)
    (hs : iv.Pairwise (fun a b => a.stop ≤ b.stop)) (i : ℕ) :
    iv.take (predCount gap iv i) =
      (iv.take i).filter
        (fun c => decide (c.stop ≤ (iv.getD i default).start - gap)) := by
  have hsub : (iv.take i).Pairwise (fun a b => a.stop ≤ b.stop) :=
    List.Pairwise.sublist (List.take_sublist i iv) hs
  rw [sorted_filter_eq_take _ _ hsub]
  unfold predCount
  rw [List.take_take]
  congr 1
  have h1 : (iv.take i).countP
      (fun c => decide (c.stop ≤ (iv.getD i default).start - gap)) ≤ i :=
    le_trans (List.countP_le_length _) (by simp)
  omega

theorem mem_take_predCount (gap : ℚ) (iv : List SegmentCandidate)
    (hs : iv.Pairwise (fun a b => a.stop ≤ b.stop)) (i : ℕ)
    (x : SegmentCandidate) (hx : x ∈ iv.take (predCount gap iv i)) :
    x.stop ≤ (iv.getD i default).start - gap := by
  rw [take_predCount_eq_filter gap iv hs i] at hx
  have := (List.mem_filter.mp hx).2
  simpa using this

/-- Everything before position `i` in the sorted list stops no later than
the interval at `i`. -/
theorem stop_le_of_mem_take (iv : List SegmentCandidate)
    (hs : iv.Pairwise (fun a b => a.stop ≤ b.stop)) (i : ℕ)
    (hi : i < iv.length) :
    ∀ x ∈ iv.take i, x.stop ≤ (iv.getD i default).stop := by
  intro x hx
  have hsplit := List.take_append_drop i iv
  have hdrop := List.drop_eq_getElem_cons hi
  have hs2 : (iv.take i ++ iv.drop i).Pairwise (fun a b => a.stop ≤ b.stop) := by
    rw [hsplit]; exact hs
  have hrel := (List.pairwise_append.mp hs2).2.2 x hx (iv.getD i default)
  apply hrel
  rw [List.getD_eq_getElem iv default hi, hdrop]
  exact List.mem_cons_self _ _

/-- A pairwise relation on a list relates a member to everything in the
list with that member erased (in one direction or the other). -/
theorem pairwise_erase_rel {R : SegmentCandidate → SegmentCandidate → Prop} :
    ∀ (T : List SegmentCandidate) (c : SegmentCandidate), T.Pairwise R →
    c ∈ T → ∀ x ∈ T.erase c, R c x ∨ R x c := by
  intro T
  induction T with
  | nil => intro c _ hc; cases hc
  | cons t ts ih =>
    intro c hpw hc x hx
    rcases List.pairwise_cons.mp hpw with ⟨hhead, htail⟩
    by_cases hct : c = t
    · subst hct
      rw [List.erase_cons_head] at hx
      exact Or.inl (hhead x hx)
    · rw [List.erase_cons_tail (by simpa using (Ne.symm hct))] at hx
      rcases List.mem_cons.mp hx with rfl | hx'
      · exact Or.inr (hhead c (by
          rcases List.mem_cons.mp hc with h | h
          · exact absurd h hct
          · exact h))
      · rcases List.mem_cons.mp hc with h | h
        · exact absurd h hct
        · exact ih c htail h x hx'

theorem dpShorts_zero_i (gap : ℚ) (iv : List SegmentCandidate) (k : ℕ) :
    dpShorts gap iv 0 k = 0 := by
  rw [dpShorts]

theorem dpShorts_zero_k (gap : ℚ) (iv : List SegmentCandidate) (i : ℕ) :
    dpShorts gap iv i 0 = 0 := by
  cases i <;> rw [dpShorts]

theorem dpShorts_succ (gap : ℚ) (iv : List SegmentCandidate) (i k : ℕ) :
    dpShorts gap iv (i + 1) (k + 1) =
      (if dpShorts gap iv i (k + 1) <
          (iv.getD i default).score + dpShorts gap iv (predCount gap iv i) k
       then (iv.getD i default).score + dpShorts gap iv (predCount gap iv i) k
       else dpShorts gap iv i (k + 1)) := by
  rw [dpShorts]

theorem selShorts_zero_i (gap : ℚ) (iv : List SegmentCandidate) (k : ℕ) :
    selShorts gap iv 0 k = [] := by
  rw [selShorts]

theorem selShorts_zero_k (gap : ℚ) (iv : List SegmentCandidate) (i : ℕ) :
    selShorts gap iv i 0 = [] := by
  cases i <;> rw [selShorts]

theorem selShorts_succ (gap : ℚ) (iv : List SegmentCandidate) (i k : ℕ) :
    selShorts gap iv (i + 1) (k + 1) =
      (if dpShorts gap iv i (k + 1) <
          (iv.getD i default).score + dpShorts gap iv (predCount gap iv i) k
       then (iv.getD i default) :: selShorts gap iv (predCount gap iv i) k
       else selShorts gap iv i (k + 1)) := by
  rw [selShorts]

/-- The DP value never decreases when more intervals become available. -/
theorem dpShorts_mono (gap : ℚ) (iv : List SegmentCandidate) (i k : ℕ) :
    dpShorts gap iv i k ≤ dpShorts gap iv (i + 1) k := by
  cases k with
  | zero => rw [dpShorts_zero_k, dpShorts_zero_k]
  | succ k' =>
    rw [dpShorts_succ]
    split
    · rename_i h
      exact le_of_lt h
    · exact le_refl _

/-- Upper bound: the DP value dominates the score of every gap-separated
subfamily of the first `i` intervals with at most `k` members. -/
theorem dpShorts_ub (gap : ℚ) (iv : List SegmentCandidate)
    (hgap : 0 ≤ gap)
    (hs : iv.Pairwise (fun a b => a.stop ≤ b.stop))
    (hpos : ∀ x ∈ iv, x.start < x.stop) :
    ∀ i, ∀ (k : ℕ) (T : List SegmentCandidate),
      T.Subperm (iv.take i) → T.Pairwise (SepBy gap) → T.length ≤ k →
      (T.map SegmentCandidate.score).sum ≤ dpShorts gap iv i k := by
  intro i
  induction i using Nat.strong_induction_on with
  | _ i ih =>
    match i with
    | 0 =>
      intro k T hsub _ _
      rw [List.take_zero, List.subperm_nil] at hsub
      subst hsub
      rw [dpShorts_zero_i]
      simp
    | Nat.succ i' =>
      intro k T hsub hpw hlen
      by_cases hin : i' < iv.length
      · set c := iv.getD i' default with hc
        have htake : iv.take (i' + 1) = iv.take i' ++ [c] := by
          rw [List.take_succ, List.getElem?_eq_getElem hin]
          rw [hc, List.getD_eq_getElem iv default hin]
          rfl
        by_cases hcT : c ∈ T
        · cases k with
          | zero =>
            have h1 : 1 ≤ T.length := List.length_pos.mpr (List.ne_nil_of_mem hcT)
            omega
          | succ k' =>
            set T' := T.erase c with hT'
            have hsum : c.score + (T'.map SegmentCandidate.score).sum =
                (T.map SegmentCandidate.score).sum :=
              List.sum_map_erase SegmentCandidate.score hcT
            have hsub' : T'.Subperm (iv.take i') := by
              apply Multiset.coe_le.mp
              rw [hT', ← Multiset.coe_erase]
              rw [Multiset.erase_le_iff_le_cons]
              have h1 := Multiset.coe_le.mpr hsub
              rw [htake] at h1
              have h2 : ((iv.take i' ++ [c] : List SegmentCandidate) :
                  Multiset SegmentCandidate) =
                  c ::ₘ (iv.take i' : Multiset SegmentCandidate) := by
                rw [Multiset.cons_coe]
                exact Multiset.coe_eq_coe.mpr (List.perm_append_singleton c _)
              rw [h2] at h1
              exact h1
            have hPall : ∀ x ∈ T', x.stop ≤ c.start - gap := by
              intro x hx
              have hxT : x ∈ T := List.mem_of_mem_erase hx
              have hx_take : x ∈ iv.take i' := hsub'.subset hx
              have hxiv : x ∈ iv := (List.take_sublist i' iv).subset hx_take
              have hrel := pairwise_erase_rel T c hpw hcT x hx
              have hsep : SepBy gap c x := by
                rcases hrel with h | h
                · exact h
                · exact h.symm
              rcases hsep with h | h
              · exfalso
                have hstop : x.stop ≤ c.stop :=
                  stop_le_of_mem_take iv hs i' hin x hx_take
                have hxx := hpos x hxiv
                linarith
              · linarith
            have hsubP : T'.Subperm (iv.take (predCount gap iv i')) := by
              rw [take_predCount_eq_filter gap iv hs i']
              obtain ⟨l, hlperm, hlsub⟩ := hsub'
              refine ⟨l, hlperm, ?_⟩
              have hfs : l.filter (fun cc =>
                  decide (cc.stop ≤ (iv.getD i' default).start - gap)) = l := by
                rw [List.filter_eq_self]
                intro a ha
                simp only [decide_eq_true_eq]
                exact hPall a (hlperm.subset ha)
              rw [← hfs]
              exact hlsub.filter _
            have hlen' : T'.length ≤ k' := by
              rw [hT', List.length_erase, if_pos hcT]
              omega
            have hpw' : T'.Pairwise (SepBy gap) :=
              List.Pairwise.sublist (List.erase_sublist c T) hpw
            have hrec := ih (predCount gap iv i')
              (lt_of_le_of_lt (predCount_le gap iv i') (Nat.lt_succ_self i'))
              k' T' hsubP hpw' hlen'
            rw [dpShorts_succ, ← hc, ← hsum]
            split
            · rename_i hsp
              linarith [hrec]
            · rename_i hsp
              have hts := not_lt.mp hsp
              linarith [hrec]
        · have hsub' : T.Subperm (iv.take i') := by
            apply Multiset.coe_le.mp
            have h1 := Multiset.coe_le.mpr hsub
            rw [htake] at h1
            have h2 : ((iv.take i' ++ [c] : List SegmentCandidate) :
                Multiset SegmentCandidate) =
                c ::ₘ (iv.take i' : Multiset SegmentCandidate) := by
              rw [Multiset.cons_coe]
              exact Multiset.coe_eq_coe.mpr (List.perm_append_singleton c _)
            rw [h2] at h1
            have hnotin : c ∉ (T : Multiset SegmentCandidate) := by
              simpa using hcT
            exact (Multiset.le_cons_of_not_mem hnotin).mp h1
          exact le_trans (ih i' (Nat.lt_succ_self i') k T hsub' hpw hlen)
            (dpShorts_mono gap iv i' k)
      · have hup : iv.take (i' + 1) = iv.take i' := by
          rw [List.take_of_length_le (by omega), List.take_of_length_le (by omega)]
        rw [hup] at hsub
        exact le_trans (ih i' (by omega) k T hsub hpw hlen)
          (dpShorts_mono gap iv i' k)

theorem take_sublist_take_of_le {α : Type} (m n : ℕ) (h : m ≤ n) (l : List α) :
    (l.take m).Sublist (l.take n) := by
  have h1 := List.take_sublist m (l.take n)
  rwa [List.take_take, Nat.min_eq_left h] at h1

/-- The reconstruction loop: its picks score exactly the DP value, number
at most `k`, come from the first `i` intervals, and are listed latest-first
with the configured gap between consecutive picks. -/
theorem selShorts_spec (gap : ℚ) (iv : List SegmentCandidate)
    (hs : iv.Pairwise (fun a b => a.stop ≤ b.stop)) :
    ∀ i, i ≤ iv.length → ∀ k,
      ((selShorts gap iv i k).map SegmentCandidate.score).sum =
        dpShorts gap iv i k ∧
      (selShorts gap iv i k).length ≤ k ∧
      (selShorts gap iv i k).Subperm (iv.take i) ∧
      (selShorts gap iv i k).Pairwise (fun a b => b.stop + gap ≤ a.start) := by
  intro i
  induction i using Nat.strong_induction_on with
  | _ i ih =>
    match i with
    | 0 =>
      intro _ k
      rw [selShorts_zero_i, dpShorts_zero_i]
      exact ⟨rfl, by simp, List.nil_subperm, List.Pairwise.nil⟩
    | Nat.succ i' =>
      intro hii k
      have hin : i' < iv.length := by omega
      cases k with
      | zero =>
        rw [selShorts_zero_k, dpShorts_zero_k]
        exact ⟨rfl, by simp, List.nil_subperm, List.Pairwise.nil⟩
      | succ k' =>
        rw [selShorts_succ, dpShorts_succ]
        have hpred_lt : predCount gap iv i' < i' + 1 :=
          lt_of_le_of_lt (predCount_le gap iv i') (Nat.lt_succ_self i')
        have hpred_le : predCount gap iv i' ≤ iv.length :=
          le_trans (predCount_le gap iv i') (by omega)
        have hrecP := ih (predCount gap iv i') hpred_lt hpred_le k'
        have hrecS := ih i' (Nat.lt_succ_self i') (by omega) (k' + 1)
        set c := iv.getD i' default with hc
        have htake : iv.take (i' + 1) = iv.take i' ++ [c] := by
          rw [List.take_succ, List.getElem?_eq_getElem hin]
          rw [hc, List.getD_eq_getElem iv default hin]
          rfl
        by_cases hcond : dpShorts gap iv i' (k' + 1) <
            c.score + dpShorts gap iv (predCount gap iv i') k'
        · rw [if_pos hcond, if_pos hcond]
          refine ⟨?_, ?_, ?_, ?_⟩
          · simp only [List.map_cons, List.sum_cons]
            rw [hrecP.1]
          · simp only [List.length_cons]
            exact Nat.succ_le_succ hrecP.2.1
          · rw [htake]
            have h1 : (selShorts gap iv (predCount gap iv i') k').Subperm
                (iv.take i') :=
              hrecP.2.2.1.trans
                (take_sublist_take_of_le _ _ (predCount_le gap iv i') iv).subperm
            exact ((List.perm_append_singleton c _).symm).subperm.trans
              ((List.subperm_append_right [c]).mpr h1)
          · rw [List.pairwise_cons]
            refine ⟨?_, hrecP.2.2.2⟩
            intro x hx
            have hxtake : x ∈ iv.take (predCount gap iv i') :=
              hrecP.2.2.1.subset hx
            have hle := mem_take_predCount gap iv hs i' x hxtake
            rw [← hc] at hle
            linarith
        · rw [if_neg hcond, if_neg hcond]
          refine ⟨hrecS.1, hrecS.2.1, ?_, hrecS.2.2.2⟩
          exact hrecS.2.2.1.trans
            (take_sublist_take_of_le i' (i' + 1) (by omega) iv).subperm

/-- C1: `select_top` returns at most `max_segments` segments, all within the
duration bounds, pairwise separated by `min_gap`, and of maximal total score
among all gap-separated subfamilies of the duration-filtered candidates of
size at most `max_segments`. -/
theorem C1_select_top_spec (cands : List SegmentCandidate) (ms : ℤ)
    (dmin dmax gap : ℚ) (hms : 0 ≤ ms) (hgap : 0 ≤ gap) :
    ((select_top cands ms dmin dmax gap).length : ℤ) ≤ ms ∧
    (∀ c ∈ select_top cands ms dmin dmax gap,
      dmin ≤ c.duration ∧ c.duration ≤ dmax) ∧
    (select_top cands ms dmin dmax gap).Pairwise (SepBy gap) ∧
    (∀ T : List SegmentCandidate,
      T.Subperm (durFilter dmin dmax cands) → (T.length : ℤ) ≤ ms →
      T.Pairwise (SepBy gap) →
      (T.map SegmentCandidate.score).sum ≤
        ((select_top cands ms dmin dmax gap).map SegmentCandidate.score).sum) := by
  by_cases hearly : ms ≤ 0 ∨ durFilter dmin dmax cands = []
  · have hres : select_top cands ms dmin dmax gap = [] := by
      unfold select_top
      rw [if_pos hearly]
    rw [hres]
    refine ⟨by simpa using hms, by simp, List.Pairwise.nil, ?_⟩
    intro T hsub hlen hpw
    have hT : T = [] := by
      rcases hearly with h | h
      · have hms0 : ms = 0 := le_antisymm h hms
        subst hms0
        have : T.length = 0 := by omega
        exact List.length_eq_zero.mp this
      · rw [h] at hsub
        exact List.subperm_nil.mp hsub
    subst hT
    simp
  · have hfil : durFilter dmin dmax cands ≠ [] := (not_or.mp hearly).2
    have hres : select_top cands ms dmin dmax gap =
        (selShorts gap (sortByEndStart (durFilter dmin dmax cands))
          (sortByEndStart (durFilter dmin dmax cands)).length
          (min ms.toNat (sortByEndStart (durFilter dmin dmax cands)).length)).mergeSort
          (fun a b => decide (a.start ≤ b.start)) := by
      unfold select_top
      rw [if_neg hearly]
    set iv := sortByEndStart (durFilter dmin dmax cands) with hiv
    set kmax := min ms.toNat iv.length with hkmax
    set S := selShorts gap iv iv.length kmax with hS
    have hperm_iv : iv.Perm (durFilter dmin dmax cands) := sortByEndStart_perm _
    have hsorted : iv.Pairwise (fun a b => a.stop ≤ b.stop) :=
      sortByEndStart_sorted _
    have hmem_fil : ∀ x ∈ iv,
        dmin ≤ x.duration ∧ x.duration ≤ dmax ∧ x.start < x.stop := by
      intro x hx
      have hx2 : x ∈ durFilter dmin dmax cands := hperm_iv.subset hx
      have hflt := (List.mem_filter.mp hx2).2
      simp only [Bool.and_eq_true, decide_eq_true_eq] at hflt
      exact ⟨hflt.1.1, hflt.1.2, hflt.2⟩
    have hpos : ∀ x ∈ iv, x.start < x.stop := fun x hx => (hmem_fil x hx).2.2
    have hsel := selShorts_spec gap iv hsorted iv.length (le_refl _) kmax
    have hpermS : (S.mergeSort (fun a b => decide (a.start ≤ b.start))).Perm S :=
      List.mergeSort_perm S _
    rw [hres]
    refine ⟨?_, ?_, ?_, ?_⟩
    · rw [hpermS.length_eq]
      have h1 : S.length ≤ kmax := hsel.2.1
      have h2 : kmax ≤ ms.toNat := min_le_left _ _
      have h3 : (S.length : ℤ) ≤ (ms.toNat : ℤ) := by
        exact_mod_cast le_trans h1 h2
      rwa [Int.toNat_of_nonneg hms] at h3
    · intro c hc
      have hcS : c ∈ S := hpermS.subset hc
      have hciv : c ∈ iv := by
        have h1 : c ∈ iv.take iv.length := hsel.2.2.1.subset hcS
        rwa [List.take_length] at h1
      exact ⟨(hmem_fil c hciv).1, (hmem_fil c hciv).2.1⟩
    · have hpwS : S.Pairwise (SepBy gap) := by
        refine hsel.2.2.2.imp ?_
        intro a b hab
        exact Or.inr (by linarith)
      exact (List.Perm.pairwise_iff (fun h => Or.symm h) hpermS).mpr hpwS
    · intro T hsub hlen hpw
      have hsub2 : T.Subperm iv := hsub.trans hperm_iv.symm.subperm
      have hsub3 : T.Subperm (iv.take iv.length) := by
        rwa [List.take_length]
      have hlen1 : T.length ≤ ms.toNat := by omega
      have hlen2 : T.length ≤ iv.length := hsub2.length_le
      have hlenk : T.length ≤ kmax := le_min hlen1 hlen2
      have hub := dpShorts_ub gap iv hgap hsorted hpos iv.length kmax T
        hsub3 hpw hlenk
      rw [(hpermS.map SegmentCandidate.score).sum_eq, hsel.1]
      exact hub

/-- Witness for `C1_select_top_spec` on three concrete candidates with
`max_segments = 2`. -/
theorem C1_select_top_spec_witness :
    ((select_top [SegmentCandidate.mk 0 10 5, SegmentCandidate.mk 9 20 4,
        SegmentCandidate.mk 21 30 3] 2 0 100 0).length : ℤ) ≤ 2 :=
  (C1_select_top_spec [SegmentCandidate.mk 0 10 5, SegmentCandidate.mk 9 20 4,
    SegmentCandidate.mk 21 30 3] 2 0 100 0 (by norm_num) (by norm_num)).1
